import Mathlib

/-!
Verification development for `src/claudecode_to_html.py`, a converter from
Claude Code session transcripts (newline-delimited JSON) to a single HTML
report.  The Python source is shallowly embedded: Python strings are `String`
(or `List Char` for the character scanners), dictionaries are structures with
`Option` fields mirroring `dict.get`, machine integers are `Int` with Python
floor-division semantics, and the regex-based rewriting of the markdown
renderer is implemented by executable character scanners with the same
leftmost-match semantics.  Recursions that are not structural in the scanned
list carry an explicit fuel argument; every recursive step consumes at least
one character, and each wrapper calls its scanner with fuel equal to the
length of the input, which therefore never runs out.
-/

namespace CCHtml

/-- Python floor division (the `//` operator) on integers. -/
def pyDiv (a b : Int) : Int := Int.fdiv a b

/-- Python modulo (the `%` operator) on integers. -/
def pyMod (a b : Int) : Int := Int.fmod a b

/-- Python `sep.join(parts)`. -/
def pyJoin (sep : String) : List String → String
  | [] => ""
  | [x] => x
  | x :: y :: rest => x ++ sep ++ pyJoin sep (y :: rest)

/-- Embedding of `SessionRenderer.format_timedelta` (src lines 108-122).  The
Python function receives a `timedelta` and computes
`total_seconds = int(td.total_seconds())`; the embedding takes that integer
number of seconds directly (exact whenever the timedelta is a whole number of
seconds, which is the only case the surrounding program produces). -/
def format_timedelta (total_seconds : Int) : String :=
  let hours := pyDiv total_seconds 3600
  let minutes := pyDiv (pyMod total_seconds 3600) 60
  let seconds := pyMod total_seconds 60
  let parts : List String :=
    (if hours > 0 then [toString hours ++ "h"] else []) ++
    (if minutes > 0 ∨ hours > 0 then [toString minutes ++ "m"] else []) ++
    [toString seconds ++ "s"]
  pyJoin " " parts

/-! ### Data model: records, messages, content items (spec §3, src loader and
renderer probes) -/

/-- One element of a structured `tool_result` content payload (src lines
331-340): a plain string or an object probed for `type` and `text`. -/
inductive ResItem where
  | str (s : String)
  | obj (type_ : Option String) (text : Option String)
deriving DecidableEq

/-- Content payload of a `tool_result` item: a string or a list of items. -/
inductive ResContent where
  | str (s : String)
  | list (items : List ResItem)
deriving DecidableEq

/-- A structured content item of a message, modelling the dict shape probed by
`render_message`, `render_tool_use`, `render_tool_result` and
`find_and_render_tool_result`: every field mirrors a `.get` access, with
`none` for an absent key (the per-call-site defaults of `.get` are applied at
the use sites).  Tool-use input values are strings, the only value shape the
verified paths read. -/
structure MsgDict where
  type_ : Option String
  text : Option String
  id : Option String
  name : Option String
  input : Option (List (String × String))
  tool_use_id : Option String
  content : Option ResContent
deriving DecidableEq

/-- A content item: a plain string or a structured object. -/
inductive MsgItem where
  | str (s : String)
  | dict (d : MsgDict)
deriving DecidableEq

/-- The `content` of a message: a plain string or a list of items. -/
inductive MsgContent where
  | str (s : String)
  | items (l : List MsgItem)
deriving DecidableEq

/-- The nested `message` object of a record. -/
structure Message where
  role : String
  content : MsgContent
deriving DecidableEq

/-- One loaded record (spec §3): the loader retains only records whose `type`
is user/assistant/system, so `type_` is present; `message` mirrors
`msg.get('message', {})`.  The raw timestamp string is carried for
completeness but the timing analyzer is modelled on the parsed subsequence
(`TimedMsg`). -/
structure Record where
  type_ : String
  timestamp : Option String
  message : Option Message
deriving DecidableEq

/-- Result record of `SessionRenderer.calculate_session_timing` (src lines
102-106): three durations, modelled in whole seconds. -/
structure SessionTiming where
  total_duration : Int
  claude_working_time : Int
  waiting_for_user_time : Int
deriving DecidableEq

/-- One entry of the `timestamped_messages` list built at src lines 61-72: the
record type together with its parsed timestamp.  Timestamps are modelled as
whole seconds; the ISO-8601 parsing itself is upstream of everything proved
here, so `calculate_session_timing` below receives the already-extracted
timestamped subsequence. -/
structure TimedMsg where
  type_ : String
  timestamp : Int
deriving DecidableEq

/-- Accumulation loop of src lines 90-100: walk adjacent pairs of the
timestamped subsequence; a user→assistant pair adds its gap to the working
bucket, an assistant→user pair adds its gap to the waiting bucket, and any
other combination adds to neither.  The Python loop runs front to back; the
recursion here accumulates the same (commutative) integer sums. -/
def timingPairs : List TimedMsg → Int × Int
  | a :: b :: rest =>
    let p := timingPairs (b :: rest)
    let gap := b.timestamp - a.timestamp
    ((if a.type_ = "user" ∧ b.type_ = "assistant" then p.1 + gap else p.1),
     (if a.type_ = "assistant" ∧ b.type_ = "user" then p.2 + gap else p.2))
  | _ => (0, 0)

/-- Embedding of `SessionRenderer.calculate_session_timing` (src lines 51-106)
applied to the extracted timestamped subsequence: fewer than two timestamped
records give all-zero durations; otherwise the total duration is the last
timestamp minus the first (in original sequence order), and the working and
waiting buckets are accumulated over adjacent pairs. -/
def calculate_session_timing : List TimedMsg → SessionTiming
  | [] => ⟨0, 0, 0⟩
  | [_] => ⟨0, 0, 0⟩
  | a :: b :: rest =>
    let last := (b :: rest).getLastD b
    let p := timingPairs (a :: b :: rest)
    ⟨last.timestamp - a.timestamp, p.1, p.2⟩

/-! ### Markdown renderer (src lines 124-173)

Character-level embedding of `SessionRenderer.render_markdown`.  Each regex
substitution of the source is implemented as an executable scanner with
Python's leftmost-match, advance-on-failure semantics. -/

/-- Python regex `\w` (a word character), in its ASCII behaviour. -/
def isWordChar (c : Char) : Bool := c.isAlphanum || c = '_'

/-- Splits a character list at the first occurrence of the (nonempty) pattern
`pat`: the part strictly before the occurrence and the part strictly after it,
or `none` when there is no occurrence.  This is the primitive for leftmost
matching and for Python `str.replace`. -/
def splitOnFirst (pat : List Char) : List Char → Option (List Char × List Char)
  | [] => none
  | c :: cs =>
    if pat.isPrefixOf (c :: cs) then some ([], (c :: cs).drop pat.length)
    else
      match splitOnFirst pat cs with
      | some (pre, post) => some (c :: pre, post)
      | none => none

/-- Fenced-code-block match of the regex `` ```(\w+)?\n(.*?)``` `` (DOTALL)
anchored at the start of `cs`: three backticks, a greedy run of word
characters as the optional language tag, a newline, then the shortest content
ending before the next three backticks.  Returns language, content and the
rest of the input after the whole match.  (Backtracking into a shorter
language run can never succeed, since every strict prefix of the maximal word
run is followed by a word character, never a newline.) -/
def fenceAt (cs : List Char) : Option (List Char × List Char × List Char) :=
  if ("```".data).isPrefixOf cs then
    if ((cs.drop 3).dropWhile isWordChar).head? = some '\n' then
      match splitOnFirst ("```".data) ((cs.drop 3).dropWhile isWordChar).tail with
      | some (code, rest) => some ((cs.drop 3).takeWhile isWordChar, code, rest)
      | none => none
    else none
  else none

/-- Placeholder token `___CODE_BLOCK_{i}___` built at src line 133. -/
def placeholderTok (i : Nat) : List Char := ("___CODE_BLOCK_" ++ toString i ++ "___").data

/-- Code-block extraction pass of `render_markdown` (src lines 129-135): scan
left to right; each fenced block is replaced by its placeholder (indexed by
occurrence order) and the whole matched block text is saved.  `fuel` bounds
the recursion; every step consumes at least one input character. -/
def extractBlocksF : Nat → List Char → Nat → List Char × List (List Char)
  | 0, text, _ => (text, [])
  | _ + 1, [], _ => ([], [])
  | fuel + 1, c :: cs, n =>
    match fenceAt (c :: cs) with
    | some (lang, code, rest) =>
      let r := extractBlocksF fuel rest (n + 1)
      (placeholderTok n ++ r.1,
        ("```".data ++ lang ++ '\n' :: code ++ "```".data) :: r.2)
    | none =>
      let r := extractBlocksF fuel cs n
      (c :: r.1, r.2)

/-- Wrapper for the extraction pass with sufficient fuel. -/
def extractBlocks (text : List Char) : List Char × List (List Char) :=
  extractBlocksF text.length text 0

/-- Splits a character list on a separator, keeping empty segments (Python
`str.split` semantics for a single-character separator: the result is never
empty). -/
def splitOnChar (sep : Char) : List Char → List (List Char)
  | [] => [[]]
  | c :: cs =>
    let r := splitOnChar sep cs
    if c = sep then [] :: r
    else
      match r with
      | seg :: rest => (c :: seg) :: rest
      | [] => [[c]]

/-- Joins segments with a separator character (inverse of `splitOnChar`). -/
def joinChar (sep : Char) : List (List Char) → List Char
  | [] => []
  | [seg] => seg
  | seg :: segs => seg ++ sep :: joinChar sep segs

/-- One line of a header substitution `re.sub(r'^{marker} (.+)$', ..., MULTILINE)`:
the pattern is line-anchored and `.` does not match newlines, so the pass is a
per-line rewrite; a line that starts with the marker followed by a space and at
least one further character is wrapped in the sentinel tokens. -/
def headerLine (marker startTok endTok : List Char) (line : List Char) : List Char :=
  if (marker ++ [' ']).isPrefixOf line ∧ marker.length + 1 < line.length then
    startTok ++ line.drop (marker.length + 1) ++ endTok
  else line

/-- Whole-text header substitution pass (src lines 139-141). -/
def headerSub (marker startTok endTok : List Char) (text : List Char) : List Char :=
  joinChar '\n' ((splitOnChar '\n' text).map (headerLine marker startTok endTok))

/-- Per-character expansion of Python `html.escape` (quote=True): the five
special characters become entities, every other character is unchanged.  The
source escapes the ampersand first, so the sequential single-character
replacements of `html.escape` coincide with this per-character map. -/
def escapeChar (c : Char) : List Char :=
  if c = '&' then "&amp;".data
  else if c = '<' then "&lt;".data
  else if c = '>' then "&gt;".data
  else if c = '"' then "&quot;".data
  else if c = '\x27' then "&#x27;".data
  else [c]

/-- Embedding of `html.escape` (imported at src line 13) on character lists. -/
def escapeL (l : List Char) : List Char := List.flatten (l.map escapeChar)

/-- Embedding of `html.escape` on strings, under its source name. -/
def escape (s : String) : String := ⟨escapeL s.data⟩

/-- Fueled left-to-right non-overlapping replacement, the semantics of Python
`str.replace`.  `pat` is nonempty at every use site, so every step consumes at
least one character and fuel `≥` input length never runs out. -/
def replaceAllF (pat rep : List Char) : Nat → List Char → List Char
  | 0, l => l
  | _ + 1, [] => []
  | fuel + 1, c :: cs =>
    if pat.isPrefixOf (c :: cs) then rep ++ replaceAllF pat rep fuel ((c :: cs).drop pat.length)
    else c :: replaceAllF pat rep fuel cs

/-- Python `str.replace(pat, rep)` for a nonempty pattern. -/
def replaceAll (pat rep l : List Char) : List Char := replaceAllF pat rep l.length l

/-- Inline-code pass ``re.sub(r'`([^`]+)`', r'<code>\1</code>', html)`` of src
line 152: at a backtick, the shortest nonempty backtick-free span up to the
next backtick is wrapped; otherwise the scanner advances one character. -/
def inlineCodeF : Nat → List Char → List Char
  | 0, l => l
  | _ + 1, [] => []
  | fuel + 1, c :: cs =>
    if c = '\x60' then
      match splitOnFirst ['\x60'] cs with
      | some (content, rest) =>
        if content = [] then c :: inlineCodeF fuel cs
        else "<code>".data ++ content ++ "</code>".data ++ inlineCodeF fuel rest
      | none => c :: inlineCodeF fuel cs
    else c :: inlineCodeF fuel cs

/-- Wrapper for the inline-code pass with sufficient fuel. -/
def inlineCode (l : List Char) : List Char := inlineCodeF l.length l

/-- Lazy body scan for `\*\*(.+?)\*\*` starting after the opening stars: the
shortest nonempty newline-free content followed by two closing stars; returns
the content and the rest after the closing stars. -/
def scanStars : List Char → Option (List Char × List Char)
  | [] => none
  | c :: cs =>
    if c = '\n' then none
    else if "**".data.isPrefixOf cs then some ([c], cs.drop 2)
    else
      match scanStars cs with
      | some (content, rest) => some (c :: content, rest)
      | none => none

/-- Bold pass `re.sub(r'\*\*(.+?)\*\*', r'<strong>\1</strong>', html)` of src
line 155. -/
def boldSubF : Nat → List Char → List Char
  | 0, l => l
  | _ + 1, [] => []
  | fuel + 1, c :: cs =>
    if "**".data.isPrefixOf (c :: cs) then
      match scanStars ((c :: cs).drop 2) with
      | some (content, rest) =>
        "<strong>".data ++ content ++ "</strong>".data ++ boldSubF fuel rest
      | none => c :: boldSubF fuel cs
    else c :: boldSubF fuel cs

/-- Wrapper for the bold pass with sufficient fuel. -/
def boldSub (l : List Char) : List Char := boldSubF l.length l

/-- Lazy body scan for `\*(.+?)\*` starting after the opening star: the
shortest nonempty newline-free content followed by one closing star. -/
def scanStar : List Char → Option (List Char × List Char)
  | [] => none
  | c :: cs =>
    if c = '\n' then none
    else if cs.head? = some '*' then some ([c], cs.tail)
    else
      match scanStar cs with
      | some (content, rest) => some (c :: content, rest)
      | none => none

/-- Italic pass `re.sub(r'\*(.+?)\*', r'<em>\1</em>', html)` of src line 158. -/
def italicSubF : Nat → List Char → List Char
  | 0, l => l
  | _ + 1, [] => []
  | fuel + 1, c :: cs =>
    if c = '*' then
      match scanStar cs with
      | some (content, rest) => "<em>".data ++ content ++ "</em>".data ++ italicSubF fuel rest
      | none => c :: italicSubF fuel cs
    else c :: italicSubF fuel cs

/-- Wrapper for the italic pass with sufficient fuel. -/
def italicSub (l : List Char) : List Char := italicSubF l.length l

/-- Sentinel token of the H1 header pass (src line 141). -/
def h1Start : List Char := "___H1_START___".data

/-- Closing sentinel of the H1 header pass. -/
def h1End : List Char := "___H1_END___".data

/-- Sentinel token of the H2 header pass (src line 140). -/
def h2Start : List Char := "___H2_START___".data

/-- Closing sentinel of the H2 header pass. -/
def h2End : List Char := "___H2_END___".data

/-- Sentinel token of the H3 header pass (src line 139). -/
def h3Start : List Char := "___H3_START___".data

/-- Closing sentinel of the H3 header pass. -/
def h3End : List Char := "___H3_END___".data

/-- Restoration of one saved code block (src lines 164-171): re-parse the
saved block text with the fence regex; on success replace every occurrence of
the placeholder followed by the inserted line break `<br>\n` with the
preformatted code element (language tag used as CSS class suffix, inner
content HTML-escaped). -/
def restoreBlock (h : List Char) (i : Nat) (block : List Char) : List Char :=
  match fenceAt block with
  | some (lang, code, _) =>
    replaceAll (placeholderTok i ++ "<br>\n".data)
      ("<pre><code class=\"language-".data ++ lang ++ "\">".data ++ escapeL code
        ++ "</code></pre>".data) h
  | none => h

/-- Restoration loop `for i, block in enumerate(code_blocks)` of src line 164. -/
def restoreBlocks (blocks : List (List Char)) (h : List Char) : List Char :=
  (blocks.enum).foldl (fun acc ib => restoreBlock acc ib.1 ib.2) h

/-- Embedding of `SessionRenderer.render_markdown` (src lines 124-173) on
character lists: extract fenced code blocks, tokenize headers, HTML-escape,
turn header sentinels into tags, substitute inline code, bold, italic and line
breaks, and finally restore the saved code blocks. -/
def render_markdown_core (text : List Char) : List Char :=
  if text = [] then []
  else
    let eb := extractBlocks text
    let t1 := headerSub "###".data h3Start h3End eb.1
    let t2 := headerSub "##".data h2Start h2End t1
    let t3 := headerSub "#".data h1Start h1End t2
    let e0 := escapeL t3
    let e1 := replaceAll h3Start "<h3>".data e0
    let e2 := replaceAll h3End "</h3>".data e1
    let e3 := replaceAll h2Start "<h2>".data e2
    let e4 := replaceAll h2End "</h2>".data e3
    let e5 := replaceAll h1Start "<h1>".data e4
    let e6 := replaceAll h1End "</h1>".data e5
    let e7 := inlineCode e6
    let e8 := boldSub e7
    let e9 := italicSub e8
    let e10 := replaceAll ['\n'] "<br>\n".data e9
    restoreBlocks eb.2 e10

/-- Embedding of `SessionRenderer.render_markdown` on strings. -/
def render_markdown (text : String) : String := ⟨render_markdown_core text.data⟩

/-- Decidable "pattern occurs somewhere in the list" (for nonempty patterns),
used to state containment properties of rendered output. -/
def containsSeq (pat l : List Char) : Bool := (splitOnFirst pat l).isSome

/-- The fixed markup introduced by `render_markdown` itself: the tags of the
header, inline-code, bold, italic, line-break and preformatted-block
substitutions (src lines 147-171), together with the attribute-carrying
opening written during code-block restoration.  These are the only strings
whose injected text begins with an angle bracket. -/
def TAGS : List (List Char) :=
  ["<h1>", "</h1>", "<h2>", "</h2>", "<h3>", "</h3>", "<code>", "</code>",
   "<strong>", "</strong>", "<em>", "</em>", "<br>", "<pre>", "</pre>",
   "<code class=\"language-"].map String.data

/-- No-HTML-injection invariant: every occurrence of `<` in the list starts
one of the fixed markup strings of `TAGS`. -/
def TagSafe (l : List Char) : Prop :=
  ∀ i : Nat, (l.drop i).head? = some '<' → ∃ t ∈ TAGS, t <+: l.drop i

/-- Boolean checker for `TagSafe` on concrete lists. -/
def tagSafeB (l : List Char) : Bool :=
  (List.range l.length).all fun i =>
    !((l.drop i).head? == some '<') || TAGS.any fun t => t.isPrefixOf (l.drop i)

/-! ### Tool-use renderer (src lines 175-198) -/

/-- The `TOOL_COLORS` palette (src lines 21-33). -/
def TOOL_COLORS : List (String × String) :=
  [("Read", "#3b82f6"), ("Write", "#10b981"), ("Edit", "#f59e0b"), ("Bash", "#22c55e"),
   ("Grep", "#8b5cf6"), ("Glob", "#ec4899"), ("Task", "#06b6d4"), ("WebFetch", "#14b8a6"),
   ("WebSearch", "#f97316"), ("TodoWrite", "#a855f7"), ("default", "#6b7280")]

/-- One character of Python `repr` of a string with quote character `q`:
backslash, the quote and the common control characters are escaped; other
characters are kept verbatim (the `\xNN` escaping of other non-printables is
not modelled; no verified path depends on it). -/
def pyReprChar (q : Char) (c : Char) : String :=
  if c = '\\' then "\\\\"
  else if c = q then "\\" ++ String.singleton q
  else if c = '\n' then "\\n"
  else if c = '\r' then "\\r"
  else if c = '\t' then "\\t"
  else String.singleton c

/-- Python `repr` of a string: single quotes, switching to double quotes when
the string contains a single quote but no double quote. -/
def pyRepr (s : String) : String :=
  let q : Char := if s.data.contains '\x27' && !(s.data.contains '"') then '"' else '\x27'
  String.singleton q ++ String.join (s.data.map (pyReprChar q)) ++ String.singleton q

/-- Embedding of `SessionRenderer.render_tool_use` (src lines 175-198): colored
marker dot by palette lookup, escaped tool name, and a `key=repr(value)`
parameter preview with 100-character truncation, omitted when empty. -/
def render_tool_use (tool : MsgDict) : String :=
  let tool_name := tool.name.getD "Unknown"
  let tool_input := tool.input.getD []
  let color := (TOOL_COLORS.lookup tool_name).getD ((TOOL_COLORS.lookup "default").getD "")
  let params := tool_input.map (fun kv =>
    let value := if kv.2.length > 100 then kv.2.take 100 ++ "..." else kv.2
    kv.1 ++ "=" ++ pyRepr value)
  let params_str := if params ≠ [] then pyJoin ", " params else ""
  "\n        <div class=\"tool-use\">\n            <div class=\"tool-header\">\n                <span class=\"tool-dot\" style=\"background-color: " ++
    color ++ "\"></span>\n                <span class=\"tool-name\">" ++ escape tool_name ++
    "</span>\n                " ++
    (if params_str ≠ "" then
      "<span class=\"tool-params\">" ++ escape params_str ++ "</span>"
     else "") ++
    "\n            </div>\n        </div>\n        "

/-! ### Diff renderer (src lines 200-317) -/

/-- Python `str.splitlines(keepends=True)` restricted to `\n` line endings
(the only endings the surrounding program produces): split after every
newline, keeping it; no empty trailing piece. -/
def splitlinesKeepF : Nat → List Char → List String
  | 0, l => if l = [] then [] else [String.mk l]
  | fuel + 1, l =>
    match splitOnFirst ['\n'] l with
    | some (pre, post) => String.mk (pre ++ ['\n']) :: splitlinesKeepF fuel post
    | none => if l = [] then [] else [String.mk l]

/-- Wrapper for `splitlines(keepends=True)` with sufficient fuel. -/
def splitlinesKeep (s : String) : List String := splitlinesKeepF s.data.length s.data

/-- Modelled from the spec: a longest common subsequence of two line lists,
the core of the standard-library `difflib.SequenceMatcher` that
`render_edit_diff` delegates to (src line 206).  Fuel-bounded exhaustive
recursion; only evaluated on small concrete inputs. -/
def lcsF : Nat → List String → List String → List String
  | 0, _, _ => []
  | fuel + 1, a :: as, b :: bs =>
    if a = b then a :: lcsF fuel as bs
    else
      let l1 := lcsF fuel (a :: as) bs
      let l2 := lcsF fuel as (b :: bs)
      if l2.length ≤ l1.length then l1 else l2
  | _ + 1, _, _ => []

/-- Tagged diff lines from an alignment: context lines prefixed by a space,
old-only lines by `-`, new-only lines by `+` (deletions before additions in
each gap, as difflib orders them). -/
def tagWalkF : Nat → List String → List String → List String → List String
  | 0, old, new, _ => old.map (fun l => "-" ++ l) ++ new.map (fun l => "+" ++ l)
  | _ + 1, old, new, [] => old.map (fun l => "-" ++ l) ++ new.map (fun l => "+" ++ l)
  | fuel + 1, old, new, c :: csq =>
    match old with
    | a :: as =>
      if a = c then
        match new with
        | b :: bs =>
          if b = c then (" " ++ c) :: tagWalkF fuel as bs csq
          else ("+" ++ b) :: tagWalkF fuel old bs (c :: csq)
        | [] => []
      else ("-" ++ a) :: tagWalkF fuel as new (c :: csq)
    | [] => []

/-- Modelled from the spec: the range rendering of difflib hunk headers
(`start,length`, with the length omitted when 1). -/
def formatRange (start length : Nat) : String :=
  if length = 1 then toString (start + 1)
  else toString (if length = 0 then start else start + 1) ++ "," ++ toString length

/-- Modelled from the spec: the Python standard-library `difflib.unified_diff`
with `lineterm=''` as called at src line 206 — two header lines, a hunk header
`@@ -a,b +c,d @@`, and the tagged lines.  The embedding emits a single hunk
covering the whole input (difflib splits hunks by context distance; nothing
proved here depends on the grouping) and returns `[]` exactly when the inputs
are equal, as difflib does. -/
def unified_diff (old new : List String) : List String :=
  if old = new then []
  else
    let common := lcsF (old.length + new.length) old new
    ["--- ", "+++ ",
      "@@ -" ++ formatRange 0 old.length ++ " +" ++ formatRange 0 new.length ++ " @@"] ++
      tagWalkF (old.length + new.length) old new common

/-- Derived diff-line record (src lines 225-250, spec §3): kind tag, old-side
and new-side line numbers (Python stores an int or the empty string; the empty
string is `none`) and raw content. -/
structure DiffLine where
  type_ : String
  old_line : Option Int
  new_line : Option Int
  content : String
deriving DecidableEq

/-- Digits of a decimal number read greedily (regex `\d+`). -/
def digitsToNat (ds : List Char) : Nat := ds.foldl (fun n c => n * 10 + (c.toNat - 48)) 0

/-- Parse of the hunk-header regex `@@ -(\d+),?\d* \+(\d+),?\d* @@` via
`re.match` (src lines 218-222), anchored at the start of the line. -/
def parseHunkHeader (line : String) : Option (Int × Int) :=
  let l := line.data
  if "@@ -".data.isPrefixOf l then
    let l1 := l.drop 4
    let d1 := l1.takeWhile Char.isDigit
    let r1 := l1.dropWhile Char.isDigit
    if d1 = [] then none
    else
      let r2 := if r1.head? = some ',' then (r1.drop 1).dropWhile Char.isDigit else r1
      if " +".data.isPrefixOf r2 then
        let r3 := r2.drop 2
        let d2 := r3.takeWhile Char.isDigit
        let r4 := r3.dropWhile Char.isDigit
        if d2 = [] then none
        else
          let r5 := if r4.head? = some ',' then (r4.drop 1).dropWhile Char.isDigit else r4
          if " @@".data.isPrefixOf r5 then
            some ((digitsToNat d1 : Int), (digitsToNat d2 : Int))
          else none
      else none
  else none

/-- The diff-body loop of `render_edit_diff` (src lines 213-250): walk the
diff lines after the two header lines, tracking independent old/new line
counters; `@@` headers reset the counters when they parse and are skipped. -/
def buildDiffBody : List String → Int → Int → List DiffLine
  | [], _, _ => []
  | line :: rest, o, n =>
    if line.startsWith "@@" then
      match parseHunkHeader line with
      | some (a, b) => buildDiffBody rest (a - 1) (b - 1)
      | none => buildDiffBody rest o n
    else if line.startsWith "-" then
      ⟨"delete", some (o + 1), none, line.drop 1⟩ :: buildDiffBody rest (o + 1) n
    else if line.startsWith "+" then
      ⟨"add", none, some (n + 1), line.drop 1⟩ :: buildDiffBody rest o (n + 1)
    else
      ⟨"context", some (o + 1), some (n + 1),
        if line.startsWith " " then line.drop 1 else line⟩ ::
        buildDiffBody rest (o + 1) (n + 1)

/-- Python `str.rstrip('\n')`: strips every trailing newline. -/
def rstripNewline (s : String) : String :=
  String.mk ((s.data.reverse.dropWhile (fun c => c == '\n')).reverse)

/-- One line-number cell of a rendered diff line: Python `{num if num else ''}`
renders an absent number, and the falsy number 0, as the empty string. -/
def renderLineNum : Option Int → String
  | none => ""
  | some n => if n = 0 then "" else toString n

/-- Embedding of `SessionRenderer._render_diff_lines` (src lines 290-317). -/
def render_diff_lines (diff_lines : List DiffLine) : String :=
  "<div class=\"diff-lines\">" ++
    String.join (diff_lines.map (fun line =>
      let pc : String × String :=
        if line.type_ = "delete" then ("-", "diff-del")
        else if line.type_ = "add" then ("+", "diff-add")
        else ("", "diff-context")
      "<div class=\"diff-line " ++ pc.2 ++
        "\">\n                <span class=\"diff-line-num old\">" ++
        renderLineNum line.old_line ++
        "</span>\n                <span class=\"diff-line-num new\">" ++
        renderLineNum line.new_line ++
        "</span>\n                <span class=\"diff-prefix\">" ++ pc.1 ++
        "</span>\n                <span class=\"diff-content\">" ++
        escape (rstripNewline line.content) ++
        "</span>\n            </div>")) ++
    "</div>"

/-- HTML assembly of `render_edit_diff` once the diff body is built (src lines
252-288): optional file header, then the collapsing policy — a body of more
than 10 lines shows the first 5 with an expand control reporting the hidden
count (total − 5), otherwise the whole diff with no collapse affordance. -/
def buildEditDiffHtml (diff_body : List DiffLine) (file_path : String) : String :=
  let html_lines : List String :=
    if file_path ≠ "" then
      ["<div class=\"diff-file-header\">• Edit " ++ escape file_path ++ "</div>"]
    else []
  let total_lines := diff_body.length
  let should_collapse := total_lines > 10
  if should_collapse then
    let preview_html := render_diff_lines (diff_body.take 5)
    let full_html := render_diff_lines diff_body
    let hidden_count := total_lines - 5
    "\n            <div class=\"edit-diff collapsible\">\n                " ++
      (html_lines.head?.getD "") ++
      "\n                <div class=\"diff-preview\">\n                    " ++
      preview_html ++
      "\n                    <div class=\"diff-expand-link\" onclick=\"this.parentElement.parentElement.classList.toggle(\x27expanded\x27)\">\n                        Show full diff (" ++
      toString hidden_count ++
      " more lines)\n                    </div>\n                </div>\n                <div class=\"diff-full\">\n                    " ++
      full_html ++
      "\n                </div>\n            </div>\n            "
  else
    let diff_html := render_diff_lines diff_body
    "\n            <div class=\"edit-diff\">\n                " ++
      (html_lines.head?.getD "") ++
      "\n                " ++ diff_html ++ "\n            </div>\n            "

/-- Embedding of `SessionRenderer.render_edit_diff` (src lines 200-288). -/
def render_edit_diff (old_string new_string file_path : String) : String :=
  let old_lines := splitlinesKeep old_string
  let new_lines := splitlinesKeep new_string
  let diff := unified_diff old_lines new_lines
  if diff = [] then "<div class=\"tool-result\"><pre><code>No changes</code></pre></div>"
  else buildEditDiffHtml (buildDiffBody (diff.drop 2) 0 0) file_path

/-! ### Tool-result renderer (src lines 319-390) -/

/-- Result-content normalization of src lines 328-340: string content is used
as is; list content is joined with newlines from its plain strings and the
`text` fields of its `type: text` objects, discarding everything else. -/
def normalize_result_content : ResContent → String
  | .str s => s
  | .list items =>
    pyJoin "\n" (items.foldr (fun item acc =>
      match item with
      | .obj t tx => if t = some "text" then (tx.getD "") :: acc else acc
      | .str s => s :: acc) [])

/-- Python `content.split('\n')`. -/
def pySplitNL (s : String) : List String := (splitOnChar '\n' s.data).map String.mk

/-- Embedding of `SessionRenderer.render_tool_result` (src lines 319-390).
The source falls through the Bash/Grep branch when the line count is 3 or
fewer; the conjunction below is the same control flow. -/
def render_tool_result (result : MsgDict) (tool_name : String)
    (tool_input : Option (List (String × String))) : String :=
  if tool_name = "Edit" ∧ tool_input.getD [] ≠ [] then
    let inp := tool_input.getD []
    render_edit_diff ((List.lookup "old_string" inp).getD "")
      ((List.lookup "new_string" inp).getD "") ((List.lookup "file_path" inp).getD "")
  else
    let content := normalize_result_content (result.content.getD (.str ""))
    if content = "" then ""
    else
      let is_file_content := content.data.contains '→' && content.data.contains '\n'
      let lines := pySplitNL content
      if (tool_name = "Bash" ∨ tool_name = "Grep") ∧ lines.length > 3 then
        let preview := pyJoin "\n" (lines.take 3)
        "\n                <div class=\"tool-result collapsible\">\n                    <div class=\"tool-result-preview\" onclick=\"this.parentElement.classList.toggle(\x27expanded\x27)\">\n                        <pre><code>" ++
          escape preview ++
          "</code></pre>\n                        <div class=\"expand-hint\">Click to show full output (" ++
          toString lines.length ++
          " lines)</div>\n                    </div>\n                    <div class=\"tool-result-full\">\n                        <pre><code>" ++
          escape content ++
          "</code></pre>\n                    </div>\n                </div>\n                "
      else
        let is_long := is_file_content && lines.length > 20
        if is_long then
          let preview := pyJoin "\n"
            (lines.take 10 ++ ["... (content hidden) ..."] ++ lines.drop (lines.length - 5))
          "\n            <div class=\"tool-result collapsible\">\n                <div class=\"tool-result-preview\" onclick=\"this.parentElement.classList.toggle(\x27expanded\x27)\">\n                    <pre><code>" ++
            escape preview ++
            "</code></pre>\n                    <div class=\"expand-hint\">Click to show full content (" ++
            toString lines.length ++
            " lines)</div>\n                </div>\n                <div class=\"tool-result-full\">\n                    <pre><code>" ++
            escape content ++
            "</code></pre>\n                </div>\n            </div>\n            "
        else
          "\n            <div class=\"tool-result\">\n                <pre><code>" ++
            escape content ++ "</code></pre>\n            </div>\n            "

/-! ### Tool-use/result pairing and the message renderer (src lines 409-490) -/

/-- Inner item loop of `find_and_render_tool_result` (src lines 486-489):
the first dict item tagged `tool_result` whose `tool_use_id` equals the given
id is rendered; other items are skipped. -/
def findScanItems (tool_id : Option String) (tool_name : String)
    (tool_input : Option (List (String × String))) : List MsgItem → Option String
  | [] => none
  | .str _ :: rest => findScanItems tool_id tool_name tool_input rest
  | .dict d :: rest =>
    if d.type_ = some "tool_result" ∧ d.tool_use_id = tool_id then
      some (render_tool_result d tool_name tool_input)
    else findScanItems tool_id tool_name tool_input rest

/-- Embedding of `SessionRenderer.find_and_render_tool_result` (src lines
478-490): scan all loaded records in file order, user-type records only;
string contents are skipped; render the first matching `tool_result` item,
or nothing when no record matches. -/
def find_and_render_tool_result (messages : List Record) (tool_id : Option String)
    (tool_name : String) (tool_input : Option (List (String × String))) : String :=
  match messages with
  | [] => ""
  | msg :: rest =>
    if msg.type_ = "user" then
      match (msg.message.getD ⟨"", .items []⟩).content with
      | .str _ => find_and_render_tool_result rest tool_id tool_name tool_input
      | .items items =>
        match findScanItems tool_id tool_name tool_input items with
        | some s => s
        | none => find_and_render_tool_result rest tool_id tool_name tool_input
    else find_and_render_tool_result rest tool_id tool_name tool_input

/-- Matching test of the spec's pairing invariant (§3): a content item
matches when it is a `tool_result` object whose `tool_use_id` equals the
given id. -/
def toolResultMatch (tool_id : Option String) : MsgItem → Option MsgDict
  | .str _ => none
  | .dict d =>
    if d.type_ == some "tool_result" && d.tool_use_id == tool_id then some d else none

/-- Formalization of the spec's lookup description (§3 invariant, §4.8): the
first content item — scanning all loaded records in file order, keeping only
user-type records with structured content and flattening their items — that
is a `tool_result` object whose `tool_use_id` equals the given id. -/
def specFirstToolResult (messages : List Record) (tool_id : Option String) :
    Option MsgDict :=
  (((messages.filter (fun m => m.type_ == "user")).map (fun m =>
      match (m.message.getD ⟨"", .items []⟩).content with
      | .str _ => []
      | .items items => items)).flatten).findSome? (toolResultMatch tool_id)

/-- Python whitespace for `str.strip()` (ASCII set). -/
def pyIsSpace (c : Char) : Bool :=
  c = ' ' || c = '\t' || c = '\n' || c = '\r' || c = '\x0b' || c = '\x0c'

/-- Python `str.strip()`. -/
def pyStrip (s : String) : String :=
  String.mk (((s.data.dropWhile pyIsSpace).reverse.dropWhile pyIsSpace).reverse)

/-- User-branch loop of `render_message` (src lines 423-432): each string or
`text` item becomes a markdown-converted block; `tool_result` items (and any
other dict shape) produce nothing here. -/
def userParts : List MsgItem → List String
  | [] => []
  | .str s :: rest =>
    ("<div class=\"message-text\">" ++ render_markdown s ++ "</div>") :: userParts rest
  | .dict d :: rest =>
    if d.type_ = some "text" then
      ("<div class=\"message-text\">" ++ render_markdown (d.text.getD "") ++ "</div>") ::
        userParts rest
    else userParts rest

/-- Assistant-branch loop of `render_message` (src lines 441-470): strings and
`text` items become markdown blocks when their stripped text is nonempty,
`thinking` items are suppressed, `tool_use` items render the tool header
followed by the looked-up result when it is nonempty. -/
def assistantParts (messages : List Record) : List MsgItem → List String
  | [] => []
  | .str s :: rest =>
    (if pyStrip s ≠ "" then
      ["<div class=\"message-text\">" ++ render_markdown s ++ "</div>"]
     else []) ++ assistantParts messages rest
  | .dict d :: rest =>
    (if d.type_ = some "text" then
      (if pyStrip (d.text.getD "") ≠ "" then
        ["<div class=\"message-text\">" ++ render_markdown (d.text.getD "") ++ "</div>"]
       else [])
     else if d.type_ = some "thinking" then []
     else if d.type_ = some "tool_use" then
      render_tool_use d ::
        (let result_html := find_and_render_tool_result messages d.id (d.name.getD "")
            (some (d.input.getD []))
         if result_html ≠ "" then [result_html] else [])
     else []) ++ assistantParts messages rest

/-- Embedding of `SessionRenderer.render_message` (src lines 409-476).  The
loaded record list is passed explicitly for the lookup the source reaches
through `self.messages`.  A Python `for item in content_items` loop over a
string iterates its characters as one-character strings; the embedding makes
this explicit for the assistant branch, whose source (unlike the user branch)
has no string-content check. -/
def render_message (messages : List Record) (msg : Record) : String :=
  let message := msg.message.getD ⟨"", .items []⟩
  let content_items := message.content
  if msg.type_ = "user" then
    let html_parts :=
      match content_items with
      | .str s => ["<div class=\"message-text\">" ++ render_markdown s ++ "</div>"]
      | .items items => userParts items
    if html_parts ≠ [] then
      "<div class=\"message user-message\">" ++ String.join html_parts ++ "</div>"
    else ""
  else if msg.type_ = "assistant" then
    let items :=
      match content_items with
      | .str s => s.data.map (fun c => MsgItem.str (String.singleton c))
      | .items l => l
    let html_parts := assistantParts messages items
    if html_parts ≠ [] then
      "<div class=\"message assistant-message\">" ++ String.join html_parts ++ "</div>"
    else ""
  else ""

end CCHtml

namespace CCHtml

/-! ### Helper lemmas about the scanners -/

theorem splitOnFirst_decomp {pat : List Char} :
    ∀ {l pre post : List Char}, splitOnFirst pat l = some (pre, post) →
      l = pre ++ pat ++ post := by
  intro l
  induction l with
  | nil => intro pre post h; simp [splitOnFirst] at h
  | cons c cs ih =>
    intro pre post h
    rw [splitOnFirst] at h
    by_cases hp : pat.isPrefixOf (c :: cs)
    · rw [if_pos hp] at h
      obtain ⟨h1, h2⟩ := Prod.mk.injEq .. ▸ Option.some.injEq .. ▸ h
      subst h1 h2
      have hpre : pat <+: (c :: cs) := List.isPrefixOf_iff_prefix.mp hp
      simp only [List.nil_append]
      exact (List.prefix_iff_eq_append.mp hpre).symm
    · rw [if_neg hp] at h
      cases hsp : splitOnFirst pat cs with
      | none => rw [hsp] at h; simp at h
      | some pr =>
        rw [hsp] at h
        obtain ⟨pre', post'⟩ := pr
        simp only [Option.some.injEq, Prod.mk.injEq] at h
        obtain ⟨h1, h2⟩ := h
        subst h1 h2
        have := ih hsp
        simp [this]

theorem splitOnFirst_clean {code r : List Char} (h : '\x60' ∉ code) :
    splitOnFirst ("```".data) (code ++ "```".data ++ r) = some (code, r) := by
  induction code with
  | nil =>
    show splitOnFirst _ ('\x60' :: '\x60' :: '\x60' :: r) = _
    rw [splitOnFirst]
    rw [if_pos (by simp [List.isPrefixOf])]
    rfl
  | cons c cs ih =>
    have hc : c ≠ '\x60' := fun hh => h (by simp [hh])
    have hcs : '\x60' ∉ cs := fun hh => h (by simp [hh])
    rw [List.cons_append, List.cons_append, splitOnFirst]
    rw [if_neg (by
      intro hp
      have := List.isPrefixOf_iff_prefix.mp hp
      obtain ⟨t, ht⟩ := this
      have : '\x60' = c := by
        have := congrArg (fun l => l.head?) ht
        simpa using this
      exact hc this.symm)]
    rw [ih hcs]

theorem takeWhile_word_lang {lang rest : List Char} (h : ∀ c ∈ lang, isWordChar c) :
    (lang ++ '\n' :: rest).takeWhile isWordChar = lang := by
  induction lang with
  | nil => simp [List.takeWhile, isWordChar]
  | cons c cs ih =>
    have hc : isWordChar c := h c (by simp)
    simp only [List.cons_append, List.takeWhile_cons, hc, if_true]
    rw [ih (fun x hx => h x (by simp [hx]))]

theorem dropWhile_word_lang {lang rest : List Char} (h : ∀ c ∈ lang, isWordChar c) :
    (lang ++ '\n' :: rest).dropWhile isWordChar = '\n' :: rest := by
  induction lang with
  | nil => simp [List.dropWhile, isWordChar]
  | cons c cs ih =>
    have hc : isWordChar c := h c (by simp)
    simp only [List.cons_append, List.dropWhile_cons, hc, if_true]
    exact ih (fun x hx => h x (by simp [hx]))

theorem fenceAt_parse {lang code r : List Char} (hlang : ∀ c ∈ lang, isWordChar c)
    (hcode : '\x60' ∉ code) :
    fenceAt ("```".data ++ lang ++ '\n' :: (code ++ "```".data ++ r)) =
      some (lang, code, r) := by
  have hdrop : ("```".data ++ lang ++ '\n' :: (code ++ "```".data ++ r)).drop 3 =
      lang ++ '\n' :: (code ++ "```".data ++ r) := rfl
  have hdw : (("```".data ++ lang ++ '\n' :: (code ++ "```".data ++ r)).drop 3).dropWhile
      isWordChar = '\n' :: (code ++ "```".data ++ r) := by
    rw [hdrop]; exact dropWhile_word_lang hlang
  have htw : (("```".data ++ lang ++ '\n' :: (code ++ "```".data ++ r)).drop 3).takeWhile
      isWordChar = lang := by
    rw [hdrop]; exact takeWhile_word_lang hlang
  rw [fenceAt, if_pos (by simp [List.isPrefixOf, List.append_assoc]), hdw, htw]
  have hcond : (('\n') :: (code ++ "```".data ++ r)).head? = some '\n' := rfl
  rw [if_pos hcond, List.tail_cons, splitOnFirst_clean hcode]

theorem fenceAt_decomp {l lang code r : List Char} (h : fenceAt l = some (lang, code, r)) :
    l = "```".data ++ lang ++ '\n' :: (code ++ "```".data ++ r) ∧
      (∀ c ∈ lang, isWordChar c) := by
  rw [fenceAt] at h
  split at h
  · rename_i hp
    split at h
    · rename_i hh
      cases hdw : (l.drop 3).dropWhile isWordChar with
      | nil => rw [hdw] at hh; simp at hh
      | cons d body =>
        rw [hdw] at hh h
        have hd : d = '\n' := by simpa using hh
        subst hd
        rw [List.tail_cons] at h
        split at h
        · rename_i code' rest' hsp
          simp only [Option.some.injEq, Prod.mk.injEq] at h
          obtain ⟨h1, h2, h3⟩ := h
          subst h1
          subst h2
          subst h3
          have hpre : ("```".data) <+: l := List.isPrefixOf_iff_prefix.mp hp
          have hl : "```".data ++ l.drop 3 = l := by
            have := List.prefix_iff_eq_append.mp hpre
            simpa using this
          have hbody := splitOnFirst_decomp hsp
          have htd : (l.drop 3).takeWhile isWordChar ++ '\n' :: body = l.drop 3 := by
            conv_rhs =>
              rw [← List.takeWhile_append_dropWhile isWordChar (l.drop 3), hdw]
          refine ⟨?_, fun c hc => List.mem_takeWhile_imp hc⟩
          calc l = "```".data ++ l.drop 3 := hl.symm
            _ = "```".data ++ ((l.drop 3).takeWhile isWordChar ++ '\n' :: body) := by rw [htd]
            _ = "```".data ++ (l.drop 3).takeWhile isWordChar ++
                '\n' :: (code' ++ "```".data ++ rest') := by rw [hbody]; simp [List.append_assoc]
        · simp at h
    · simp at h
  · simp at h

theorem fenceAt_rest_lt {l lang code r : List Char} (h : fenceAt l = some (lang, code, r)) :
    r.length < l.length := by
  have := (fenceAt_decomp h).1
  rw [this]
  simp
  omega

/-! Fuel irrelevance: each fueled scanner gives the same answer for any fuel at
least the length of the scanned list. -/

theorem replaceAllF_nil (pat rep : List Char) : ∀ f, replaceAllF pat rep f [] = [] := by
  intro f; cases f <;> rfl

theorem replaceAllF_irrel (pat rep : List Char) (hp : pat ≠ []) :
    ∀ (f₁ : Nat) (l : List Char) (f₂ : Nat), l.length ≤ f₁ → l.length ≤ f₂ →
      replaceAllF pat rep f₁ l = replaceAllF pat rep f₂ l := by
  intro f₁
  induction f₁ with
  | zero =>
    intro l f₂ h1 _
    have : l = [] := List.length_eq_zero.mp (Nat.le_zero.mp h1)
    subst this
    rw [replaceAllF_nil, replaceAllF_nil]
  | succ f ih =>
    intro l f₂ h1 h2
    cases l with
    | nil => rw [replaceAllF_nil, replaceAllF_nil]
    | cons c cs =>
      cases f₂ with
      | zero => simp at h2
      | succ g =>
        show (if pat.isPrefixOf (c :: cs) then _ else _) =
          (if pat.isPrefixOf (c :: cs) then _ else _)
        by_cases hpre : pat.isPrefixOf (c :: cs)
        · rw [if_pos hpre, if_pos hpre]
          have hlen : ((c :: cs).drop pat.length).length ≤ cs.length := by
            simp only [List.length_drop]
            have : pat.length ≥ 1 := by
              cases pat with
              | nil => exact absurd rfl hp
              | cons a as => simp
            simp only [List.length_cons]
            omega
          rw [ih _ g (by simp at h1; omega) (by simp at h2; omega)]
        · rw [if_neg hpre, if_neg hpre]
          rw [ih cs g (by simp at h1; omega) (by simp at h2; omega)]

theorem replaceAll_nil (pat rep : List Char) : replaceAll pat rep [] = [] := rfl

theorem replaceAll_cons (pat rep : List Char) (hp : pat ≠ []) (c : Char) (cs : List Char) :
    replaceAll pat rep (c :: cs) =
      if pat.isPrefixOf (c :: cs) then rep ++ replaceAll pat rep ((c :: cs).drop pat.length)
      else c :: replaceAll pat rep cs := by
  show (if pat.isPrefixOf (c :: cs) then
      rep ++ replaceAllF pat rep cs.length ((c :: cs).drop pat.length)
    else c :: replaceAllF pat rep cs.length cs) = _
  by_cases hpre : pat.isPrefixOf (c :: cs)
  · rw [if_pos hpre, if_pos hpre]
    have hlen : ((c :: cs).drop pat.length).length ≤ cs.length := by
      simp only [List.length_drop, List.length_cons]
      have : pat.length ≥ 1 := by
        cases pat with
        | nil => exact absurd rfl hp
        | cons a as => simp
      omega
    rw [replaceAllF_irrel pat rep hp _ _ _ hlen (Nat.le_refl _)]
    rfl
  · rw [if_neg hpre, if_neg hpre]
    rfl

theorem replaceAll_exact (pat rep : List Char) (hp : pat ≠ []) :
    replaceAll pat rep pat = rep := by
  cases pat with
  | nil => exact absurd rfl hp
  | cons p pr =>
    rw [replaceAll_cons _ _ hp]
    rw [if_pos (List.isPrefixOf_iff_prefix.mpr (List.prefix_refl _))]
    have : ((p :: pr).drop (p :: pr).length) = ([] : List Char) := by
      simp
    rw [this, replaceAll_nil, List.append_nil]

theorem extractBlocksF_nil (n : Nat) : ∀ f, extractBlocksF f [] n = ([], []) := by
  intro f; cases f <;> rfl

theorem extractBlocksF_irrel :
    ∀ (f₁ : Nat) (l : List Char) (n f₂ : Nat), l.length ≤ f₁ → l.length ≤ f₂ →
      extractBlocksF f₁ l n = extractBlocksF f₂ l n := by
  intro f₁
  induction f₁ with
  | zero =>
    intro l n f₂ h1 _
    have : l = [] := List.length_eq_zero.mp (Nat.le_zero.mp h1)
    subst this
    rw [extractBlocksF_nil, extractBlocksF_nil]
  | succ f ih =>
    intro l n f₂ h1 h2
    cases l with
    | nil => rw [extractBlocksF_nil, extractBlocksF_nil]
    | cons c cs =>
      cases f₂ with
      | zero => simp at h2
      | succ g =>
        cases hf : fenceAt (c :: cs) with
        | some v =>
          obtain ⟨lang, code, rest⟩ := v
          have hrest : rest.length < (c :: cs).length := fenceAt_rest_lt hf
          simp only [extractBlocksF, hf]
          rw [ih rest (n + 1) g (by simp at h1 hrest ⊢; omega) (by simp at h2 hrest ⊢; omega)]
        | none =>
          simp only [extractBlocksF, hf]
          rw [ih cs n g (by simp at h1; omega) (by simp at h2; omega)]

theorem extractBlocksF_cons (c : Char) (cs : List Char) (n : Nat) :
    extractBlocksF (c :: cs).length (c :: cs) n =
      match fenceAt (c :: cs) with
      | some (lang, code, rest) =>
        let r := extractBlocksF rest.length rest (n + 1)
        (placeholderTok n ++ r.1, ("```".data ++ lang ++ '\n' :: code ++ "```".data) :: r.2)
      | none =>
        let r := extractBlocksF cs.length cs n
        (c :: r.1, r.2) := by
  cases hf : fenceAt (c :: cs) with
  | some v =>
    obtain ⟨lang, code, rest⟩ := v
    have hrest : rest.length < (c :: cs).length := fenceAt_rest_lt hf
    show extractBlocksF (cs.length + 1) (c :: cs) n = _
    simp only [extractBlocksF, hf]
    rw [extractBlocksF_irrel cs.length rest (n + 1) rest.length
      (by simp at hrest ⊢; omega) (Nat.le_refl _)]
  | none =>
    show extractBlocksF (cs.length + 1) (c :: cs) n = _
    simp only [extractBlocksF, hf]

/-! ### The no-injection invariant `TagSafe` -/

theorem tags_head : ∀ t ∈ TAGS, t.head? = some '<' := by decide

theorem tags_no_underscore : ∀ t ∈ TAGS, ('_' : Char) ∉ t := by decide

theorem tags_no_newline : ∀ t ∈ TAGS, ('\n' : Char) ∉ t := by decide

theorem tags_no_backtick : ∀ t ∈ TAGS, ('\x60' : Char) ∉ t := by decide

theorem tags_no_star : ∀ t ∈ TAGS, ('*' : Char) ∉ t := by decide

theorem tagSafe_nil : TagSafe [] := by
  intro i h
  simp at h

theorem tagSafe_append {u v : List Char} (hu : TagSafe u) (hv : TagSafe v) :
    TagSafe (u ++ v) := by
  intro i h
  rw [List.drop_append_eq_append_drop] at h ⊢
  cases hdu : u.drop i with
  | nil =>
    rw [hdu] at h
    simp only [List.nil_append] at h ⊢
    exact hv _ h
  | cons a as =>
    rw [hdu] at h
    have ha : a = '<' := by
      simpa using h
    have h' : (u.drop i).head? = some '<' := by rw [hdu]; simp [ha]
    obtain ⟨t, ht, hp⟩ := hu _ h'
    rw [hdu] at hp
    exact ⟨t, ht, hp.trans (List.prefix_append _ _)⟩

theorem tagSafe_drop {l : List Char} (h : TagSafe l) (n : Nat) : TagSafe (l.drop n) := by
  intro i hi
  rw [List.drop_drop] at hi ⊢
  exact h _ hi

theorem tagSafe_cons_of_ne {c : Char} {l : List Char} (hc : c ≠ '<') (h : TagSafe l) :
    TagSafe (c :: l) := by
  intro i hi
  cases i with
  | zero => simp at hi; exact absurd hi hc
  | succ j =>
    rw [List.drop_succ_cons] at hi ⊢
    exact h j hi

theorem tagSafe_cons_of_head {c : Char} {l : List Char}
    (hhead : ∃ t ∈ TAGS, t <+: (c :: l)) (h : TagSafe l) : TagSafe (c :: l) := by
  intro i hi
  cases i with
  | zero => simpa using hhead
  | succ j =>
    rw [List.drop_succ_cons] at hi ⊢
    exact h j hi

theorem tagSafe_of_no_lt {l : List Char} (h : ('<' : Char) ∉ l) : TagSafe l := by
  intro i hi
  exfalso
  apply h
  have hmem : '<' ∈ l.drop i := by
    cases hdl : l.drop i with
    | nil => rw [hdl] at hi; simp at hi
    | cons a as =>
      rw [hdl] at hi
      simp only [List.head?_cons, Option.some.injEq] at hi
      rw [hi]
      exact List.mem_cons_self _ _
  exact (List.drop_subset i l) hmem

theorem tagSafe_of_tagSafeB {l : List Char} (h : tagSafeB l = true) : TagSafe l := by
  intro i hi
  by_cases hil : i < l.length
  · unfold tagSafeB at h
    rw [List.all_eq_true] at h
    have hx := h i (List.mem_range.mpr hil)
    rw [hi] at hx
    simp only [beq_self_eq_true, Bool.not_true, Bool.false_or, List.any_eq_true] at hx
    obtain ⟨t, ht, hp⟩ := hx
    exact ⟨t, ht, List.isPrefixOf_iff_prefix.mp hp⟩
  · have hdl : l.drop i = [] := List.drop_eq_nil_of_le (Nat.le_of_not_lt hil)
    rw [hdl] at hi
    simp at hi

theorem escapeChar_no_lt (c : Char) : ('<' : Char) ∉ escapeChar c := by
  intro hmem
  unfold escapeChar at hmem
  split_ifs at hmem with h1 h2 h3 h4 h5
  · revert hmem; decide
  · revert hmem; decide
  · revert hmem; decide
  · revert hmem; decide
  · revert hmem; decide
  · simp at hmem
    exact h2 hmem.symm

theorem escapeL_no_lt (l : List Char) : ('<' : Char) ∉ escapeL l := by
  intro h
  unfold escapeL at h
  rw [List.mem_flatten] at h
  obtain ⟨s, hs, hmem⟩ := h
  rw [List.mem_map] at hs
  obtain ⟨c, _, rfl⟩ := hs
  exact escapeChar_no_lt c hmem

theorem pref_of_append_not_mem {t x y : List Char} {d : Char}
    (h : t <+: x ++ d :: y) (hd : d ∉ t) : t <+: x := by
  rcases le_or_lt t.length x.length with hle | hlt
  · have heq : t = (x ++ d :: y).take t.length := List.prefix_iff_eq_take.mp h
    rw [List.take_append_eq_append_take, Nat.sub_eq_zero_of_le hle] at heq
    simp only [List.take_zero, List.append_nil] at heq
    refine ⟨x.drop t.length, ?_⟩
    nth_rewrite 1 [heq]
    exact List.take_append_drop _ _
  · exfalso
    apply hd
    have heq : t = (x ++ d :: y).take t.length := List.prefix_iff_eq_take.mp h
    rw [List.take_append_eq_append_take] at heq
    cases hk : t.length - x.length with
    | zero => omega
    | succ m =>
      rw [hk] at heq
      simp only [List.take_succ_cons] at heq
      rw [heq]
      exact List.mem_append_right _ (List.mem_cons_self _ _)

theorem replaceAll_skip {pat rep : List Char} {p0 : Char} (hp : pat.head? = some p0)
    {q rest : List Char} (hq : ∀ c ∈ q, c ≠ p0) :
    replaceAll pat rep (q ++ rest) = q ++ replaceAll pat rep rest := by
  have hpne : pat ≠ [] := by intro hh; rw [hh] at hp; simp at hp
  induction q with
  | nil => simp
  | cons c cs ih =>
    have hng : ¬ pat.isPrefixOf (c :: (cs ++ rest)) := by
      intro hpre
      obtain ⟨u, hu⟩ := List.isPrefixOf_iff_prefix.mp hpre
      cases pat with
      | nil => exact hpne rfl
      | cons p pr =>
        have hp0 : p = p0 := by simpa using hp
        have hpc : p = c := by
          have := congrArg List.head? hu
          simpa using this
        exact hq c (List.mem_cons_self _ _) (by rw [← hpc, hp0])
    rw [List.cons_append, replaceAll_cons _ _ hpne, if_neg hng,
      ih (fun x hx => hq x (List.mem_cons_of_mem _ hx))]
    rfl

theorem replaceAll_tagSafe {pat rep : List Char} {p0 : Char} (hp : pat.head? = some p0)
    (hp0 : ∀ t ∈ TAGS, p0 ∉ t) (hrep : TagSafe rep) :
    ∀ l, TagSafe l → TagSafe (replaceAll pat rep l) := by
  have hpne : pat ≠ [] := by intro hh; rw [hh] at hp; simp at hp
  have main : ∀ n (l : List Char), l.length ≤ n → TagSafe l →
      TagSafe (replaceAll pat rep l) := by
    intro n
    induction n with
    | zero =>
      intro l hl _
      have : l = [] := List.length_eq_zero.mp (Nat.le_zero.mp hl)
      subst this
      rw [replaceAll_nil]
      exact tagSafe_nil
    | succ n ih =>
      intro l hl h
      cases l with
      | nil => rw [replaceAll_nil]; exact tagSafe_nil
      | cons c cs =>
        rw [replaceAll_cons _ _ hpne]
        by_cases hpre : pat.isPrefixOf (c :: cs)
        · rw [if_pos hpre]
          apply tagSafe_append hrep
          apply ih
          · have hplen : 1 ≤ pat.length := by
              cases pat with
              | nil => exact absurd rfl hpne
              | cons _ _ => simp
            simp only [List.length_drop, List.length_cons]
            simp only [List.length_cons] at hl
            omega
          · exact tagSafe_drop h _
        · rw [if_neg hpre]
          have hcs : TagSafe cs := tagSafe_drop h 1
          by_cases hc : c = '<'
          · subst hc
            obtain ⟨t, ht, htp⟩ := h 0 rfl
            cases t with
            | nil =>
              have := tags_head _ ht
              simp at this
            | cons x t' =>
              have hx : x = '<' := by
                have := tags_head _ ht
                simpa using this
              subst hx
              obtain ⟨u, hu⟩ := htp
              have hu' : t' ++ u = cs := by
                simpa using hu
              have hskip : replaceAll pat rep cs = t' ++ replaceAll pat rep u := by
                rw [← hu']
                exact replaceAll_skip hp
                  (fun x hx hxeq => hp0 ('<' :: t') ht (List.mem_cons_of_mem _ (hxeq ▸ hx)))
              apply tagSafe_cons_of_head
              · refine ⟨'<' :: t', ht, ?_⟩
                rw [hskip]
                exact ⟨replaceAll pat rep u, by simp⟩
              · exact ih cs (by simp at hl; omega) hcs
          · exact tagSafe_cons_of_ne hc (ih cs (by simp at hl; omega) hcs)
  intro l h
  exact main l.length l (Nat.le_refl _) h

theorem splitOnFirst_single_not_mem {d : Char} :
    ∀ {l pre post : List Char}, splitOnFirst [d] l = some (pre, post) → d ∉ pre := by
  intro l
  induction l with
  | nil => intro pre post h; simp [splitOnFirst] at h
  | cons c cs ih =>
    intro pre post h
    rw [splitOnFirst] at h
    by_cases hp : [d].isPrefixOf (c :: cs)
    · rw [if_pos hp] at h
      simp only [Option.some.injEq, Prod.mk.injEq] at h
      obtain ⟨h1, _⟩ := h
      subst h1
      simp
    · rw [if_neg hp] at h
      have hd : d ≠ c := by
        intro hh
        exact hp (by simp [List.isPrefixOf, hh])
      cases hsp : splitOnFirst [d] cs with
      | none => rw [hsp] at h; simp at h
      | some pr =>
        obtain ⟨pre', post'⟩ := pr
        rw [hsp] at h
        simp only [Option.some.injEq, Prod.mk.injEq] at h
        obtain ⟨h1, _⟩ := h
        subst h1
        intro hmem
        rcases List.mem_cons.mp hmem with hh | hh
        · exact hd hh
        · exact ih hsp hh

theorem tagSafe_segment {l mid : List Char} {d : Char} {post : List Char} (off : Nat)
    (hl : l.drop off = mid ++ d :: post) (h : TagSafe l) (hd : ∀ t ∈ TAGS, d ∉ t) :
    TagSafe mid := by
  intro i hi
  by_cases hil : i < mid.length
  · have hdd : l.drop (i + off) = (l.drop off).drop i := by
      rw [List.drop_drop, Nat.add_comm]
    have hdp : l.drop (i + off) = mid.drop i ++ d :: post := by
      rw [hdd, hl, List.drop_append_eq_append_drop,
        Nat.sub_eq_zero_of_le (Nat.le_of_lt hil)]
      simp
    have hh2 : (l.drop (i + off)).head? = some '<' := by
      rw [hdp]
      cases hmd : mid.drop i with
      | nil => rw [hmd] at hi; simp at hi
      | cons a as =>
        rw [hmd] at hi
        simpa using hi
    obtain ⟨t, ht, hp⟩ := h (i + off) hh2
    rw [hdp] at hp
    exact ⟨t, ht, pref_of_append_not_mem hp (hd t ht)⟩
  · have hmd : mid.drop i = [] := List.drop_eq_nil_of_le (Nat.le_of_not_lt hil)
    rw [hmd] at hi
    simp at hi

theorem tagSafe_cons_advance {c : Char} {cs gcs : List Char}
    (h : TagSafe (c :: cs)) (hg : TagSafe gcs)
    (hsk : ∀ t' u : List Char, ('<' :: t') ∈ TAGS → t' ++ u = cs → ∃ v, gcs = t' ++ v) :
    TagSafe (c :: gcs) := by
  by_cases hc : c = '<'
  · subst hc
    obtain ⟨t, ht, htp⟩ := h 0 rfl
    cases t with
    | nil =>
      have := tags_head _ ht
      simp at this
    | cons x t' =>
      have hx : x = '<' := by
        have := tags_head _ ht
        simpa using this
      subst hx
      obtain ⟨u, hu⟩ := htp
      have hu' : t' ++ u = cs := by simpa using hu
      obtain ⟨v, hv⟩ := hsk t' u ht hu'
      apply tagSafe_cons_of_head _ hg
      exact ⟨'<' :: t', ht, by rw [hv]; exact ⟨v, by simp⟩⟩
  · exact tagSafe_cons_of_ne hc hg

theorem inlineCodeF_nil : ∀ f, inlineCodeF f [] = [] := by
  intro f; cases f <;> rfl

theorem inlineCodeF_irrel :
    ∀ (f₁ : Nat) (l : List Char) (f₂ : Nat), l.length ≤ f₁ → l.length ≤ f₂ →
      inlineCodeF f₁ l = inlineCodeF f₂ l := by
  intro f₁
  induction f₁ with
  | zero =>
    intro l f₂ h1 _
    have : l = [] := List.length_eq_zero.mp (Nat.le_zero.mp h1)
    subst this
    rw [inlineCodeF_nil, inlineCodeF_nil]
  | succ f ih =>
    intro l f₂ h1 h2
    cases l with
    | nil => rw [inlineCodeF_nil, inlineCodeF_nil]
    | cons c cs =>
      cases f₂ with
      | zero => simp at h2
      | succ g =>
        cases hsp : splitOnFirst ['\x60'] cs with
        | some pr =>
          obtain ⟨content, rest⟩ := pr
          have hrlen : content.length + 1 + rest.length = cs.length := by
            have := splitOnFirst_decomp hsp
            rw [this]
            simp
            omega
          simp only [inlineCodeF, hsp]
          by_cases hc : c = '\x60'
          · rw [if_pos hc, if_pos hc]
            by_cases hcont : content = []
            · rw [if_pos hcont, if_pos hcont, ih cs g (by simp at h1; omega) (by simp at h2; omega)]
            · rw [if_neg hcont, if_neg hcont,
                ih rest g (by simp at h1; omega) (by simp at h2; omega)]
          · rw [if_neg hc, if_neg hc, ih cs g (by simp at h1; omega) (by simp at h2; omega)]
        | none =>
          simp only [inlineCodeF, hsp, ite_self]
          rw [ih cs g (by simp at h1; omega) (by simp at h2; omega)]

theorem inlineCode_nil : inlineCode [] = [] := rfl

theorem inlineCode_cons (c : Char) (cs : List Char) :
    inlineCode (c :: cs) =
      if c = '\x60' then
        match splitOnFirst ['\x60'] cs with
        | some (content, rest) =>
          if content = [] then c :: inlineCode cs
          else "<code>".data ++ content ++ "</code>".data ++ inlineCode rest
        | none => c :: inlineCode cs
      else c :: inlineCode cs := by
  show inlineCodeF (cs.length + 1) (c :: cs) = _
  cases hsp : splitOnFirst ['\x60'] cs with
  | some pr =>
    obtain ⟨content, rest⟩ := pr
    have hrlen : content.length + 1 + rest.length = cs.length := by
      have := splitOnFirst_decomp hsp
      rw [this]
      simp
      omega
    simp only [inlineCodeF, hsp]
    by_cases hc : c = '\x60'
    · rw [if_pos hc, if_pos hc]
      by_cases hcont : content = []
      · rw [if_pos hcont, if_pos hcont]
        rfl
      · rw [if_neg hcont, if_neg hcont,
          inlineCodeF_irrel cs.length rest rest.length (by omega) (Nat.le_refl _)]
        rfl
    · rw [if_neg hc, if_neg hc]
      rfl
  | none =>
    simp only [inlineCodeF, hsp, ite_self]
    rfl

theorem inlineCode_skip {q rest : List Char} (hq : ∀ c ∈ q, c ≠ '\x60') :
    inlineCode (q ++ rest) = q ++ inlineCode rest := by
  induction q with
  | nil => simp
  | cons c cs ih =>
    rw [List.cons_append, inlineCode_cons, if_neg (hq c (List.mem_cons_self _ _)),
      ih (fun x hx => hq x (List.mem_cons_of_mem _ hx))]
    rfl

theorem inlineCode_tagSafe : ∀ l, TagSafe l → TagSafe (inlineCode l) := by
  have main : ∀ n (l : List Char), l.length ≤ n → TagSafe l → TagSafe (inlineCode l) := by
    intro n
    induction n with
    | zero =>
      intro l hl _
      have : l = [] := List.length_eq_zero.mp (Nat.le_zero.mp hl)
      subst this
      rw [inlineCode_nil]
      exact tagSafe_nil
    | succ n ih =>
      intro l hl h
      cases l with
      | nil => rw [inlineCode_nil]; exact tagSafe_nil
      | cons c cs =>
        have hcs : TagSafe cs := tagSafe_drop h 1
        have hlcs : cs.length ≤ n := by simp at hl; omega
        by_cases hc : c = '\x60'
        · cases hsp : splitOnFirst ['\x60'] cs with
          | some pr =>
            obtain ⟨content, rest⟩ := pr
            have hdec := splitOnFirst_decomp hsp
            by_cases hcont : content = []
            · rw [inlineCode_cons, if_pos hc]
              simp only [hsp]
              rw [if_pos hcont]
              exact tagSafe_cons_of_ne (by rw [hc]; decide) (ih cs hlcs hcs)
            · rw [inlineCode_cons, if_pos hc]
              simp only [hsp]
              rw [if_neg hcont]
              have hcsrw : (c :: cs).drop 1 = content ++ '\x60' :: rest := by
                simpa using hdec
              have hmid : TagSafe content := tagSafe_segment 1 hcsrw h tags_no_backtick
              have hrest : TagSafe rest := by
                have : rest = cs.drop (content.length + 1) := by
                  rw [hdec]
                  simp
                rw [this]
                exact tagSafe_drop hcs _
              have hrlen : rest.length ≤ n := by
                have := congrArg List.length hdec
                simp at this
                omega
              apply tagSafe_append
              apply tagSafe_append
              apply tagSafe_append
              · exact tagSafe_of_tagSafeB (by decide)
              · exact hmid
              · exact tagSafe_of_tagSafeB (by decide)
              · exact ih rest hrlen hrest
          | none =>
            rw [inlineCode_cons, if_pos hc]
            simp only [hsp]
            exact tagSafe_cons_of_ne (by rw [hc]; decide) (ih cs hlcs hcs)
        · rw [inlineCode_cons, if_neg hc]
          apply tagSafe_cons_advance h (ih cs hlcs hcs)
          intro t' u ht hu
          refine ⟨inlineCode u, ?_⟩
          rw [← hu]
          exact inlineCode_skip (fun x hx hxeq =>
            tags_no_backtick ('<' :: t') ht (hxeq ▸ List.mem_cons_of_mem _ hx))
  intro l h
  exact main l.length l (Nat.le_refl _) h

theorem scanStars_decomp :
    ∀ {l content rest : List Char}, scanStars l = some (content, rest) →
      l = content ++ '*' :: '*' :: rest ∧ content ≠ [] := by
  intro l
  induction l with
  | nil => intro content rest h; simp [scanStars] at h
  | cons c cs ih =>
    intro content rest h
    rw [scanStars] at h
    by_cases hc : c = '\n'
    · rw [if_pos hc] at h; simp at h
    · rw [if_neg hc] at h
      by_cases hpre : "**".data.isPrefixOf cs
      · rw [if_pos hpre] at h
        simp only [Option.some.injEq, Prod.mk.injEq] at h
        obtain ⟨h1, h2⟩ := h
        subst h1
        subst h2
        obtain ⟨u, hu⟩ := List.isPrefixOf_iff_prefix.mp hpre
        constructor
        · have hcs : cs = '*' :: '*' :: cs.drop 2 := by
            rw [← hu]
            simp
          rw [List.singleton_append]
          exact congrArg (c :: ·) hcs
        · simp
      · rw [if_neg hpre] at h
        cases hs : scanStars cs with
        | none => rw [hs] at h; simp at h
        | some pr =>
          obtain ⟨content', rest'⟩ := pr
          rw [hs] at h
          simp only [Option.some.injEq, Prod.mk.injEq] at h
          obtain ⟨h1, h2⟩ := h
          subst h1
          subst h2
          obtain ⟨hcs, _⟩ := ih hs
          refine ⟨?_, by simp⟩
          rw [List.cons_append]
          exact congrArg (c :: ·) hcs

theorem scanStar_decomp :
    ∀ {l content rest : List Char}, scanStar l = some (content, rest) →
      l = content ++ '*' :: rest ∧ content ≠ [] := by
  intro l
  induction l with
  | nil => intro content rest h; simp [scanStar] at h
  | cons c cs ih =>
    intro content rest h
    rw [scanStar] at h
    by_cases hc : c = '\n'
    · rw [if_pos hc] at h; simp at h
    · rw [if_neg hc] at h
      by_cases hhd : cs.head? = some '*'
      · rw [if_pos hhd] at h
        simp only [Option.some.injEq, Prod.mk.injEq] at h
        obtain ⟨h1, h2⟩ := h
        subst h1
        subst h2
        have hcs : cs = '*' :: cs.tail := by
          cases cs with
          | nil => simp at hhd
          | cons a as =>
            simp only [List.head?_cons, Option.some.injEq] at hhd
            rw [hhd]
            rfl
        refine ⟨?_, by simp⟩
        rw [List.singleton_append]
        exact congrArg (c :: ·) hcs
      · rw [if_neg hhd] at h
        cases hs : scanStar cs with
        | none => rw [hs] at h; simp at h
        | some pr =>
          obtain ⟨content', rest'⟩ := pr
          rw [hs] at h
          simp only [Option.some.injEq, Prod.mk.injEq] at h
          obtain ⟨h1, h2⟩ := h
          subst h1
          subst h2
          obtain ⟨hcs, _⟩ := ih hs
          refine ⟨?_, by simp⟩
          rw [List.cons_append]
          exact congrArg (c :: ·) hcs

theorem boldSubF_nil : ∀ f, boldSubF f [] = [] := by
  intro f; cases f <;> rfl

theorem boldSubF_irrel :
    ∀ (f₁ : Nat) (l : List Char) (f₂ : Nat), l.length ≤ f₁ → l.length ≤ f₂ →
      boldSubF f₁ l = boldSubF f₂ l := by
  intro f₁
  induction f₁ with
  | zero =>
    intro l f₂ h1 _
    have : l = [] := List.length_eq_zero.mp (Nat.le_zero.mp h1)
    subst this
    rw [boldSubF_nil, boldSubF_nil]
  | succ f ih =>
    intro l f₂ h1 h2
    cases l with
    | nil => rw [boldSubF_nil, boldSubF_nil]
    | cons c cs =>
      cases f₂ with
      | zero => simp at h2
      | succ g =>
        cases hsp : scanStars ((c :: cs).drop 2) with
        | some pr =>
          obtain ⟨content, rest⟩ := pr
          have hdec := (scanStars_decomp hsp).1
          have hrlen : rest.length ≤ cs.length := by
            have := congrArg List.length hdec
            simp at this
            omega
          simp only [boldSubF, hsp]
          by_cases hpre : "**".data.isPrefixOf (c :: cs)
          · rw [if_pos hpre, if_pos hpre,
              ih rest g (by simp at h1; omega) (by simp at h2; omega)]
          · rw [if_neg hpre, if_neg hpre,
              ih cs g (by simp at h1; omega) (by simp at h2; omega)]
        | none =>
          simp only [boldSubF, hsp, ite_self]
          rw [ih cs g (by simp at h1; omega) (by simp at h2; omega)]

theorem boldSub_nil : boldSub [] = [] := rfl

theorem boldSub_cons (c : Char) (cs : List Char) :
    boldSub (c :: cs) =
      if "**".data.isPrefixOf (c :: cs) then
        match scanStars ((c :: cs).drop 2) with
        | some (content, rest) =>
          "<strong>".data ++ content ++ "</strong>".data ++ boldSub rest
        | none => c :: boldSub cs
      else c :: boldSub cs := by
  show boldSubF (cs.length + 1) (c :: cs) = _
  cases hsp : scanStars ((c :: cs).drop 2) with
  | some pr =>
    obtain ⟨content, rest⟩ := pr
    have hdec := (scanStars_decomp hsp).1
    have hrlen : rest.length ≤ cs.length := by
      have := congrArg List.length hdec
      simp at this
      omega
    simp only [boldSubF, hsp]
    by_cases hpre : "**".data.isPrefixOf (c :: cs)
    · rw [if_pos hpre, if_pos hpre,
        boldSubF_irrel cs.length rest rest.length hrlen (Nat.le_refl _)]
      rfl
    · rw [if_neg hpre, if_neg hpre]
      rfl
  | none =>
    simp only [boldSubF, hsp, ite_self]
    rfl

theorem boldSub_skip {q rest : List Char} (hq : ∀ c ∈ q, c ≠ '*') :
    boldSub (q ++ rest) = q ++ boldSub rest := by
  induction q with
  | nil => simp
  | cons c cs ih =>
    have hng : ¬ "**".data.isPrefixOf (c :: (cs ++ rest)) := by
      intro hpre
      obtain ⟨u, hu⟩ := List.isPrefixOf_iff_prefix.mp hpre
      have : c = '*' := by
        have := congrArg List.head? hu
        simpa using this.symm
      exact hq c (List.mem_cons_self _ _) this
    rw [List.cons_append, boldSub_cons, if_neg hng,
      ih (fun x hx => hq x (List.mem_cons_of_mem _ hx))]
    rfl

theorem boldSub_tagSafe : ∀ l, TagSafe l → TagSafe (boldSub l) := by
  have main : ∀ n (l : List Char), l.length ≤ n → TagSafe l → TagSafe (boldSub l) := by
    intro n
    induction n with
    | zero =>
      intro l hl _
      have : l = [] := List.length_eq_zero.mp (Nat.le_zero.mp hl)
      subst this
      rw [boldSub_nil]
      exact tagSafe_nil
    | succ n ih =>
      intro l hl h
      cases l with
      | nil => rw [boldSub_nil]; exact tagSafe_nil
      | cons c cs =>
        have hcs : TagSafe cs := tagSafe_drop h 1
        have hlcs : cs.length ≤ n := by simp at hl; omega
        by_cases hpre : "**".data.isPrefixOf (c :: cs)
        · have hcstar : c = '*' := by
            obtain ⟨u, hu⟩ := List.isPrefixOf_iff_prefix.mp hpre
            have := congrArg List.head? hu
            simpa using this.symm
          cases hsp : scanStars ((c :: cs).drop 2) with
          | some pr =>
            obtain ⟨content, rest⟩ := pr
            have hdec := (scanStars_decomp hsp).1
            rw [boldSub_cons, if_pos hpre]
            simp only [hsp]
            have hmid : TagSafe content := tagSafe_segment 2 hdec h tags_no_star
            have hrest : TagSafe rest := by
              have hr : rest = ((c :: cs).drop 2).drop (content.length + 2) := by
                rw [hdec, List.drop_append_eq_append_drop]
                simp
              rw [hr, List.drop_drop]
              exact tagSafe_drop h _
            have hrlen : rest.length ≤ n := by
              have := congrArg List.length hdec
              simp at this
              simp at hl
              omega
            apply tagSafe_append
            apply tagSafe_append
            apply tagSafe_append
            · exact tagSafe_of_tagSafeB (by decide)
            · exact hmid
            · exact tagSafe_of_tagSafeB (by decide)
            · exact ih rest hrlen hrest
          | none =>
            rw [boldSub_cons, if_pos hpre]
            simp only [hsp]
            exact tagSafe_cons_of_ne (by rw [hcstar]; decide) (ih cs hlcs hcs)
        · rw [boldSub_cons, if_neg hpre]
          apply tagSafe_cons_advance h (ih cs hlcs hcs)
          intro t' u ht hu
          refine ⟨boldSub u, ?_⟩
          rw [← hu]
          exact boldSub_skip (fun x hx hxeq =>
            tags_no_star ('<' :: t') ht (hxeq ▸ List.mem_cons_of_mem _ hx))
  intro l h
  exact main l.length l (Nat.le_refl _) h

theorem italicSubF_nil : ∀ f, italicSubF f [] = [] := by
  intro f; cases f <;> rfl

theorem italicSubF_irrel :
    ∀ (f₁ : Nat) (l : List Char) (f₂ : Nat), l.length ≤ f₁ → l.length ≤ f₂ →
      italicSubF f₁ l = italicSubF f₂ l := by
  intro f₁
  induction f₁ with
  | zero =>
    intro l f₂ h1 _
    have : l = [] := List.length_eq_zero.mp (Nat.le_zero.mp h1)
    subst this
    rw [italicSubF_nil, italicSubF_nil]
  | succ f ih =>
    intro l f₂ h1 h2
    cases l with
    | nil => rw [italicSubF_nil, italicSubF_nil]
    | cons c cs =>
      cases f₂ with
      | zero => simp at h2
      | succ g =>
        cases hsp : scanStar cs with
        | some pr =>
          obtain ⟨content, rest⟩ := pr
          have hdec := (scanStar_decomp hsp).1
          have hrlen : rest.length ≤ cs.length := by
            have := congrArg List.length hdec
            simp at this
            omega
          simp only [italicSubF, hsp]
          by_cases hc : c = '*'
          · rw [if_pos hc, if_pos hc,
              ih rest g (by simp at h1; omega) (by simp at h2; omega)]
          · rw [if_neg hc, if_neg hc,
              ih cs g (by simp at h1; omega) (by simp at h2; omega)]
        | none =>
          simp only [italicSubF, hsp, ite_self]
          rw [ih cs g (by simp at h1; omega) (by simp at h2; omega)]

theorem italicSub_nil : italicSub [] = [] := rfl

theorem italicSub_cons (c : Char) (cs : List Char) :
    italicSub (c :: cs) =
      if c = '*' then
        match scanStar cs with
        | some (content, rest) => "<em>".data ++ content ++ "</em>".data ++ italicSub rest
        | none => c :: italicSub cs
      else c :: italicSub cs := by
  show italicSubF (cs.length + 1) (c :: cs) = _
  cases hsp : scanStar cs with
  | some pr =>
    obtain ⟨content, rest⟩ := pr
    have hdec := (scanStar_decomp hsp).1
    have hrlen : rest.length ≤ cs.length := by
      have := congrArg List.length hdec
      simp at this
      omega
    simp only [italicSubF, hsp]
    by_cases hc : c = '*'
    · rw [if_pos hc, if_pos hc,
        italicSubF_irrel cs.length rest rest.length hrlen (Nat.le_refl _)]
      rfl
    · rw [if_neg hc, if_neg hc]
      rfl
  | none =>
    simp only [italicSubF, hsp, ite_self]
    rfl

theorem italicSub_skip {q rest : List Char} (hq : ∀ c ∈ q, c ≠ '*') :
    italicSub (q ++ rest) = q ++ italicSub rest := by
  induction q with
  | nil => simp
  | cons c cs ih =>
    rw [List.cons_append, italicSub_cons, if_neg (hq c (List.mem_cons_self _ _)),
      ih (fun x hx => hq x (List.mem_cons_of_mem _ hx))]
    rfl

theorem italicSub_tagSafe : ∀ l, TagSafe l → TagSafe (italicSub l) := by
  have main : ∀ n (l : List Char), l.length ≤ n → TagSafe l → TagSafe (italicSub l) := by
    intro n
    induction n with
    | zero =>
      intro l hl _
      have : l = [] := List.length_eq_zero.mp (Nat.le_zero.mp hl)
      subst this
      rw [italicSub_nil]
      exact tagSafe_nil
    | succ n ih =>
      intro l hl h
      cases l with
      | nil => rw [italicSub_nil]; exact tagSafe_nil
      | cons c cs =>
        have hcs : TagSafe cs := tagSafe_drop h 1
        have hlcs : cs.length ≤ n := by simp at hl; omega
        by_cases hc : c = '*'
        · cases hsp : scanStar cs with
          | some pr =>
            obtain ⟨content, rest⟩ := pr
            have hdec := (scanStar_decomp hsp).1
            rw [italicSub_cons, if_pos hc]
            simp only [hsp]
            have hcsrw : (c :: cs).drop 1 = content ++ '*' :: rest := by simpa using hdec
            have hmid : TagSafe content := tagSafe_segment 1 hcsrw h tags_no_star
            have hrest : TagSafe rest := by
              have hr : rest = cs.drop (content.length + 1) := by
                rw [hdec, List.drop_append_eq_append_drop]
                simp
              rw [hr]
              exact tagSafe_drop hcs _
            have hrlen : rest.length ≤ n := by
              have := congrArg List.length hdec
              simp at this
              omega
            apply tagSafe_append
            apply tagSafe_append
            apply tagSafe_append
            · exact tagSafe_of_tagSafeB (by decide)
            · exact hmid
            · exact tagSafe_of_tagSafeB (by decide)
            · exact ih rest hrlen hrest
          | none =>
            rw [italicSub_cons, if_pos hc]
            simp only [hsp]
            exact tagSafe_cons_of_ne (by rw [hc]; decide) (ih cs hlcs hcs)
        · rw [italicSub_cons, if_neg hc]
          apply tagSafe_cons_advance h (ih cs hlcs hcs)
          intro t' u ht hu
          refine ⟨italicSub u, ?_⟩
          rw [← hu]
          exact italicSub_skip (fun x hx hxeq =>
            tags_no_star ('<' :: t') ht (hxeq ▸ List.mem_cons_of_mem _ hx))
  intro l h
  exact main l.length l (Nat.le_refl _) h

theorem tagSafe_attr_open (lang code : List Char) (hlang : ∀ c ∈ lang, isWordChar c) :
    TagSafe ("<code class=\"language-".data ++ lang ++ "\">".data ++ escapeL code) := by
  intro i hi
  cases i with
  | zero =>
    refine ⟨"<code class=\"language-".data, by decide, ?_⟩
    refine ⟨lang ++ "\">".data ++ escapeL code, ?_⟩
    simp [List.append_assoc]
  | succ j =>
    exfalso
    have hmem : '<' ∈ ("<code class=\"language-".data ++ lang ++ "\">".data
        ++ escapeL code).drop (j + 1) := by
      cases hd : ("<code class=\"language-".data ++ lang ++ "\">".data
          ++ escapeL code).drop (j + 1) with
      | nil => rw [hd] at hi; simp at hi
      | cons a as =>
        rw [hd] at hi
        simp only [List.head?_cons, Option.some.injEq] at hi
        rw [hi]
        exact List.mem_cons_self _ _
    have hdd : ("<code class=\"language-".data ++ lang ++ "\">".data
        ++ escapeL code).drop (j + 1) =
        (("<code class=\"language-".data ++ lang ++ "\">".data
          ++ escapeL code).drop 1).drop j := by
      rw [List.drop_drop, Nat.add_comm]
    rw [hdd] at hmem
    have hmem1 : '<' ∈ ("<code class=\"language-".data ++ lang ++ "\">".data
        ++ escapeL code).drop 1 := (List.drop_subset _ _) hmem
    have hB1 : ("<code class=\"language-".data ++ lang ++ "\">".data
        ++ escapeL code).drop 1 =
        "code class=\"language-".data ++ lang ++ "\">".data ++ escapeL code := rfl
    rw [hB1] at hmem1
    rcases List.mem_append.mp hmem1 with hm | hm
    · rcases List.mem_append.mp hm with hm2 | hm2
      · rcases List.mem_append.mp hm2 with hm3 | hm3
        · revert hm3; decide
        · have hw := hlang _ hm3
          exact absurd hw (by decide)
      · revert hm2; decide
    · exact escapeL_no_lt _ hm

theorem restoreBlock_tagSafe (acc : List Char) (i : Nat) (block : List Char)
    (hacc : TagSafe acc) : TagSafe (restoreBlock acc i block) := by
  rw [restoreBlock]
  cases hf : fenceAt block with
  | none => simp only [hf]; exact hacc
  | some v =>
    obtain ⟨lang, code, rest⟩ := v
    simp only [hf]
    have hlang := (fenceAt_decomp hf).2
    have hhd : (placeholderTok i ++ "<br>\n".data).head? = some '_' := by
      rw [placeholderTok]
      rfl
    apply @replaceAll_tagSafe (placeholderTok i ++ "<br>\n".data) _ '_' hhd
      tags_no_underscore ?_ acc hacc
    have hconc : "<pre><code class=\"language-".data =
        "<pre>".data ++ "<code class=\"language-".data := by decide
    have heq : "<pre><code class=\"language-".data ++ lang ++ "\">".data ++ escapeL code
        ++ "</code></pre>".data =
        "<pre>".data ++ (("<code class=\"language-".data ++ lang ++ "\">".data
          ++ escapeL code) ++ "</code></pre>".data) := by
      rw [hconc]
      simp [List.append_assoc]
    rw [heq]
    exact tagSafe_append (tagSafe_of_tagSafeB (by decide))
      (tagSafe_append (tagSafe_attr_open lang code hlang) (tagSafe_of_tagSafeB (by decide)))

theorem restoreBlocks_tagSafe (blocks : List (List Char)) (acc : List Char)
    (hacc : TagSafe acc) : TagSafe (restoreBlocks blocks acc) := by
  rw [restoreBlocks]
  have main : ∀ (ps : List (Nat × List Char)) (a : List Char), TagSafe a →
      TagSafe (ps.foldl (fun a ib => restoreBlock a ib.1 ib.2) a) := by
    intro ps
    induction ps with
    | nil => intro a ha; simpa using ha
    | cons p ps ih =>
      intro a ha
      rw [List.foldl_cons]
      exact ih _ (restoreBlock_tagSafe _ _ _ ha)
  exact main _ _ hacc

theorem render_markdown_core_tagSafe (text : List Char) :
    TagSafe (render_markdown_core text) := by
  rw [render_markdown_core]
  split
  · exact tagSafe_nil
  · have e0 : TagSafe (escapeL (headerSub "#".data h1Start h1End
        (headerSub "##".data h2Start h2End
          (headerSub "###".data h3Start h3End (extractBlocks text).1)))) :=
      tagSafe_of_no_lt (escapeL_no_lt _)
    have e1 := @replaceAll_tagSafe h3Start "<h3>".data '_' rfl tags_no_underscore
      (tagSafe_of_tagSafeB (by decide)) _ e0
    have e2 := @replaceAll_tagSafe h3End "</h3>".data '_' rfl tags_no_underscore
      (tagSafe_of_tagSafeB (by decide)) _ e1
    have e3 := @replaceAll_tagSafe h2Start "<h2>".data '_' rfl tags_no_underscore
      (tagSafe_of_tagSafeB (by decide)) _ e2
    have e4 := @replaceAll_tagSafe h2End "</h2>".data '_' rfl tags_no_underscore
      (tagSafe_of_tagSafeB (by decide)) _ e3
    have e5 := @replaceAll_tagSafe h1Start "<h1>".data '_' rfl tags_no_underscore
      (tagSafe_of_tagSafeB (by decide)) _ e4
    have e6 := @replaceAll_tagSafe h1End "</h1>".data '_' rfl tags_no_underscore
      (tagSafe_of_tagSafeB (by decide)) _ e5
    have e7 := inlineCode_tagSafe _ e6
    have e8 := boldSub_tagSafe _ e7
    have e9 := italicSub_tagSafe _ e8
    have e10 := @replaceAll_tagSafe ['\n'] "<br>\n".data '\n' rfl tags_no_newline
      (tagSafe_of_tagSafeB (by decide)) _ e9
    exact restoreBlocks_tagSafe _ _ e10

theorem extractBlocks_single {lang code : List Char} (hlang : ∀ c ∈ lang, isWordChar c)
    (hcode : '\x60' ∉ code) :
    extractBlocks ("```".data ++ lang ++ '\n' :: (code ++ "```".data ++ ['\n'])) =
      (placeholderTok 0 ++ ['\n'],
        ["```".data ++ lang ++ '\n' :: code ++ "```".data]) := by
  have hf : fenceAt ('\x60' :: '\x60' :: '\x60' ::
      (lang ++ '\n' :: (code ++ "```".data ++ ['\n']))) = some (lang, code, ['\n']) :=
    fenceAt_parse hlang hcode
  show extractBlocksF
      ('\x60' :: '\x60' :: '\x60' :: (lang ++ '\n' :: (code ++ "```".data ++ ['\n']))).length
      ('\x60' :: '\x60' :: '\x60' :: (lang ++ '\n' :: (code ++ "```".data ++ ['\n']))) 0 = _
  rw [extractBlocksF_cons, hf]
  show (placeholderTok 0 ++ (extractBlocksF (['\n'] : List Char).length ['\n'] 1).1,
      ("```".data ++ lang ++ '\n' :: code ++ "```".data) ::
        (extractBlocksF (['\n'] : List Char).length ['\n'] 1).2) = _
  have hnl : extractBlocksF (['\n'] : List Char).length ['\n'] 1 = (['\n'], []) := by decide
  rw [hnl]

theorem midStages_placeholder :
    replaceAll ['\n'] "<br>\n".data (italicSub (boldSub (inlineCode
      (replaceAll h1End "</h1>".data (replaceAll h1Start "<h1>".data
        (replaceAll h2End "</h2>".data (replaceAll h2Start "<h2>".data
          (replaceAll h3End "</h3>".data (replaceAll h3Start "<h3>".data
            (escapeL (headerSub "#".data h1Start h1End
              (headerSub "##".data h2Start h2End
                (headerSub "###".data h3Start h3End
                  (placeholderTok 0 ++ ['\n'])))))))))))))) =
      placeholderTok 0 ++ "<br>\n".data := by decide

/-! ### Helper lemmas for the lookup and message renderer claims -/

theorem findScanItems_eq (tool_id : Option String) (tool_name : String)
    (tool_input : Option (List (String × String))) :
    ∀ items : List MsgItem, findScanItems tool_id tool_name tool_input items =
      (items.findSome? (toolResultMatch tool_id)).map
        (fun d => render_tool_result d tool_name tool_input) := by
  intro items
  induction items with
  | nil => rfl
  | cons item rest ih =>
    cases item with
    | str s =>
      rw [findScanItems, List.findSome?_cons]
      simpa [toolResultMatch] using ih
    | dict d =>
      rw [findScanItems, List.findSome?_cons]
      by_cases hcond : d.type_ = some "tool_result" ∧ d.tool_use_id = tool_id
      · rw [if_pos hcond]
        have hm : toolResultMatch tool_id (.dict d) = some d := by
          simp [toolResultMatch, hcond.1, hcond.2]
        rw [hm]
        rfl
      · rw [if_neg hcond]
        have hm : toolResultMatch tool_id (.dict d) = none := by
          simp only [toolResultMatch]
          rw [if_neg ?_]
          intro hb
          simp only [Bool.and_eq_true, beq_iff_eq] at hb
          exact hcond ⟨hb.1, hb.2⟩
        rw [hm]
        exact ih

theorem specFirst_cons_not_user {msg : Record} {rest : List Record}
    {tool_id : Option String} (ht : ¬ msg.type_ = "user") :
    specFirstToolResult (msg :: rest) tool_id = specFirstToolResult rest tool_id := by
  rw [specFirstToolResult, specFirstToolResult, List.filter_cons,
    if_neg (by simpa using ht)]

theorem specFirst_cons_user_str {msg : Record} {rest : List Record}
    {tool_id : Option String} {s : String} (ht : msg.type_ = "user")
    (hc : (msg.message.getD ⟨"", .items []⟩).content = .str s) :
    specFirstToolResult (msg :: rest) tool_id = specFirstToolResult rest tool_id := by
  rw [specFirstToolResult, specFirstToolResult, List.filter_cons,
    if_pos (by simpa using ht), List.map_cons, hc, List.flatten_cons]
  rfl

theorem specFirst_cons_user_items {msg : Record} {rest : List Record}
    {tool_id : Option String} {items : List MsgItem} (ht : msg.type_ = "user")
    (hc : (msg.message.getD ⟨"", .items []⟩).content = .items items) :
    specFirstToolResult (msg :: rest) tool_id =
      (items.findSome? (toolResultMatch tool_id)).or (specFirstToolResult rest tool_id) := by
  rw [specFirstToolResult, specFirstToolResult, List.filter_cons,
    if_pos (by simpa using ht), List.map_cons, hc, List.flatten_cons,
    List.findSome?_append]

theorem findAR_cons_not_user {msg : Record} {rest : List Record} {tool_id : Option String}
    {tool_name : String} {tool_input : Option (List (String × String))}
    (ht : ¬ msg.type_ = "user") :
    find_and_render_tool_result (msg :: rest) tool_id tool_name tool_input =
      find_and_render_tool_result rest tool_id tool_name tool_input := by
  simp only [find_and_render_tool_result]
  rw [if_neg ht]

theorem findAR_cons_user_str {msg : Record} {rest : List Record} {tool_id : Option String}
    {tool_name : String} {tool_input : Option (List (String × String))} {s : String}
    (ht : msg.type_ = "user") (hc : (msg.message.getD ⟨"", .items []⟩).content = .str s) :
    find_and_render_tool_result (msg :: rest) tool_id tool_name tool_input =
      find_and_render_tool_result rest tool_id tool_name tool_input := by
  simp only [find_and_render_tool_result]
  rw [if_pos ht, hc]

theorem findAR_cons_user_items {msg : Record} {rest : List Record} {tool_id : Option String}
    {tool_name : String} {tool_input : Option (List (String × String))}
    {items : List MsgItem} (ht : msg.type_ = "user")
    (hc : (msg.message.getD ⟨"", .items []⟩).content = .items items) :
    find_and_render_tool_result (msg :: rest) tool_id tool_name tool_input =
      match findScanItems tool_id tool_name tool_input items with
      | some s => s
      | none => find_and_render_tool_result rest tool_id tool_name tool_input := by
  simp only [find_and_render_tool_result]
  rw [if_pos ht, hc]

theorem pyStrip_singleton (c : Char) :
    pyStrip (String.singleton c) = if pyIsSpace c then "" else String.singleton c := by
  by_cases hc : pyIsSpace c
  · simp [pyStrip, String.singleton, hc]
  · simp [pyStrip, String.singleton, hc]
    rfl

theorem assistantParts_chars (messages : List Record) (cs : List Char) :
    assistantParts messages (cs.map (fun c => MsgItem.str (String.singleton c))) =
      (cs.filter (fun c => !(pyIsSpace c))).map
        (fun c => "<div class=\"message-text\">" ++ render_markdown (String.singleton c)
          ++ "</div>") := by
  induction cs with
  | nil => rfl
  | cons c rest ih =>
    rw [List.map_cons, assistantParts, List.filter_cons]
    by_cases hc : pyIsSpace c
    · have hstrip : ¬ pyStrip (String.singleton c) ≠ "" := by
        rw [pyStrip_singleton, if_pos hc]
        simp
      rw [if_neg hstrip, ih]
      simp [hc]
    · have hstrip : pyStrip (String.singleton c) ≠ "" := by
        rw [pyStrip_singleton, if_neg hc]
        simp [String.singleton]
        intro hh
        exact absurd (congrArg String.data hh) (by simp)
      rw [if_pos hstrip, ih]
      simp [hc]

end CCHtml

namespace CCHtml

/-- C1 (counterexample): on the input consisting of a fenced code block whose
closing fence is not followed by a newline, the renderer leaves the literal
placeholder token in its output and produces no preformatted code element at
all — the restoration replace looks for the placeholder followed by the
inserted line break, which does not occur. -/
theorem render_markdown_trailing_fence_counterexample :
    render_markdown "```python\nprint(1)\n```" = "___CODE_BLOCK_0___" ∧
    containsSeq ("___CODE_BLOCK_0___".data) (render_markdown "```python\nprint(1)\n```").data
      = true ∧
    containsSeq ("<pre>".data) (render_markdown "```python\nprint(1)\n```").data = false := by
  refine ⟨by decide, by decide, by decide⟩

/-- C1 (amended): for every input text consisting exactly of a well-formed
fenced code block whose closing fence is immediately followed by a newline —
three backticks, a language tag of word characters, a newline, backtick-free
content, three backticks, newline — the markdown renderer's output is exactly
the preformatted code element whose class is `language-` plus the language tag
and whose inner content is HTML-escaped; the placeholder token and its trailing
inserted line break are fully consumed. -/
theorem render_markdown_fenced_block_restored (lang code : List Char)
    (hlang : ∀ c ∈ lang, isWordChar c) (hcode : '\x60' ∉ code) :
    render_markdown_core ("```".data ++ lang ++ '\n' :: (code ++ "```".data ++ ['\n'])) =
      "<pre><code class=\"language-".data ++ lang ++ "\">".data ++ escapeL code ++
        "</code></pre>".data := by
  simp only [render_markdown_core]
  rw [if_neg (by simp)]
  rw [extractBlocks_single hlang hcode]
  simp only []
  rw [midStages_placeholder]
  have hf2 : fenceAt ("```".data ++ lang ++ '\n' :: code ++ "```".data) =
      some (lang, code, []) := by
    have h0 := @fenceAt_parse lang code [] hlang hcode
    have he : "```".data ++ lang ++ '\n' :: (code ++ "```".data ++ []) =
        "```".data ++ lang ++ '\n' :: code ++ "```".data := by simp
    rwa [he] at h0
  simp only [restoreBlocks, List.enum, List.enumFrom, List.foldl, restoreBlock, hf2]
  rw [replaceAll_exact _ _ (by simp [placeholderTok])]

/-- C1 (witness): the scenario block ```` ```python\nprint(1)\n``` ```` followed
by a newline renders as the preformatted `language-python` code element. -/
theorem render_markdown_fenced_block_restored_witness :
    render_markdown_core
        ("```".data ++ "python".data ++ '\n' :: ("print(1)\n".data ++ "```".data ++ ['\n'])) =
      "<pre><code class=\"language-".data ++ "python".data ++ "\">".data ++
        escapeL "print(1)\n".data ++ "</code></pre>".data :=
  render_markdown_fenced_block_restored "python".data "print(1)\n".data (by decide) (by decide)

/-- C2: for every input text, every HTML tag in the markdown renderer's output
comes from the fixed set introduced by the renderer itself: every occurrence
of an opening angle bracket in the output starts one of the fixed markup
strings of `TAGS` (h1/h2/h3, code, strong, em, br, pre, and the
class-attributed code opening of restored blocks).  Angle brackets, ampersands
and quotes of the user-supplied text are HTML-escaped before any of these tags
are introduced, so user content can never inject arbitrary HTML markup. -/
theorem render_markdown_no_injection (text : String) (i : Nat)
    (h : ((render_markdown text).data.drop i).head? = some '<') :
    ∃ t ∈ TAGS, t <+: (render_markdown text).data.drop i :=
  render_markdown_core_tagSafe text.data i h

/-- C2 (witness): in the output for `**x**` the angle bracket at position 0
opens a whitelisted tag. -/
theorem render_markdown_no_injection_witness :
    ∃ t ∈ TAGS, t <+: (render_markdown "**x**").data.drop 0 :=
  render_markdown_no_injection "**x**" 0 (by decide)

/-- C7: for every duration, the formatted string renders the seconds component
always, the minutes component exactly when minutes > 0 or hours > 0, and the
hours component exactly when hours > 0, with the present components joined by
single spaces; a zero duration renders as "0s" and a 65-minute duration as
"1h 5m 0s". -/
theorem format_timedelta_components :
    (∀ t : Int,
      format_timedelta t =
        (if pyDiv t 3600 > 0 then
          toString (pyDiv t 3600) ++ "h" ++ " " ++
            (toString (pyDiv (pyMod t 3600) 60) ++ "m" ++ " " ++
              (toString (pyMod t 60) ++ "s"))
        else if pyDiv (pyMod t 3600) 60 > 0 then
          toString (pyDiv (pyMod t 3600) 60) ++ "m" ++ " " ++ (toString (pyMod t 60) ++ "s")
        else toString (pyMod t 60) ++ "s")) ∧
    format_timedelta 0 = "0s" ∧ format_timedelta 3900 = "1h 5m 0s" := by
  refine ⟨?_, by decide, by decide⟩
  intro t
  by_cases h1 : pyDiv t 3600 > 0 <;> by_cases h2 : pyDiv (pyMod t 3600) 60 > 0 <;>
    simp [format_timedelta, pyJoin, h1, h2]

/-- C4: an adjacent user→assistant pair in the timestamped subsequence adds its
gap to working time, an assistant→user pair adds its gap to waiting time, and
every other adjacent type combination adds to neither bucket; in particular for
exactly two timestamped records, user then assistant, T seconds apart, working
time = T, waiting time = 0 and total duration = T. -/
theorem calculate_session_timing_pairs :
    (∀ t0 T : Int,
      calculate_session_timing [⟨"user", t0⟩, ⟨"assistant", t0 + T⟩] = ⟨T, T, 0⟩) ∧
    (∀ a b : TimedMsg, ∀ rest : List TimedMsg,
      (calculate_session_timing (a :: b :: rest)).claude_working_time =
        (if a.type_ = "user" ∧ b.type_ = "assistant" then b.timestamp - a.timestamp else 0) +
          (calculate_session_timing (b :: rest)).claude_working_time) ∧
    (∀ a b : TimedMsg, ∀ rest : List TimedMsg,
      (calculate_session_timing (a :: b :: rest)).waiting_for_user_time =
        (if a.type_ = "assistant" ∧ b.type_ = "user" then b.timestamp - a.timestamp else 0) +
          (calculate_session_timing (b :: rest)).waiting_for_user_time) := by
  refine ⟨?_, ?_, ?_⟩
  · intro t0 T
    simp [calculate_session_timing, timingPairs]
  · intro a b rest
    cases rest with
    | nil =>
      simp only [calculate_session_timing, timingPairs]
      split <;> omega
    | cons c cs =>
      simp only [calculate_session_timing, timingPairs]
      split <;> omega
  · intro a b rest
    cases rest with
    | nil =>
      simp only [calculate_session_timing, timingPairs]
      split <;> omega
    | cons c cs =>
      simp only [calculate_session_timing, timingPairs]
      split <;> omega

/-- C10: the duration formatter applied to a duration of −5 seconds returns
"59m 55s" (Python floor division on negative totals), so for timestamped
records that are out of chronological order the rendered total duration is a
positive-looking string that does not represent the negative span. -/
theorem format_timedelta_negative_five :
    format_timedelta (-5) = "59m 55s" ∧
    (calculate_session_timing [⟨"user", 100⟩, ⟨"assistant", 95⟩]).total_duration = -5 ∧
    format_timedelta
        (calculate_session_timing [⟨"user", 100⟩, ⟨"assistant", 95⟩]).total_duration =
      "59m 55s" := by
  refine ⟨by decide, by decide, by decide⟩

/-- C3 (counterexample): an Edit tool result whose input mapping is empty is
not delegated to the diff renderer — the (falsy) empty mapping fails the
`tool_input` truthiness test, so the generic content path renders the content
field instead. -/
theorem render_tool_result_edit_empty_input_counterexample :
    render_tool_result ⟨none, none, none, none, none, none, some (.str "hello")⟩ "Edit"
        (some []) =
      "\n            <div class=\"tool-result\">\n                <pre><code>hello</code></pre>\n            </div>\n            " ∧
    render_tool_result ⟨none, none, none, none, none, none, some (.str "hello")⟩ "Edit"
        (some []) ≠ render_edit_diff "" "" "" := by
  refine ⟨by decide, by decide⟩

/-- C3 (amended): for every tool-result record whose originating tool is
`Edit` and whose tool-use input mapping is non-empty, the tool-result renderer
delegates entirely to the edit diff renderer, computing the diff from the
input's `old_string` and `new_string` (and `file_path`) and ignoring the
result record's generic content field entirely; with an empty or absent input
mapping the generic content path is used instead. -/
theorem render_tool_result_edit_delegates (result : MsgDict)
    (input : List (String × String)) (hne : input ≠ []) :
    render_tool_result result "Edit" (some input) =
      render_edit_diff ((List.lookup "old_string" input).getD "")
        ((List.lookup "new_string" input).getD "")
        ((List.lookup "file_path" input).getD "") := by
  simp only [render_tool_result, Option.getD_some]
  rw [if_pos ⟨trivial, hne⟩]

/-- C3 (witness): a concrete Edit result with content field "IGNORED"
delegates to the diff renderer over the input's old/new strings. -/
theorem render_tool_result_edit_delegates_witness :
    render_tool_result ⟨none, none, none, none, none, none, some (.str "IGNORED")⟩ "Edit"
        (some [("old_string", "a\n"), ("new_string", "b\n"), ("file_path", "f.py")]) =
      render_edit_diff
        ((List.lookup "old_string"
          [("old_string", "a\n"), ("new_string", "b\n"), ("file_path", "f.py")]).getD "")
        ((List.lookup "new_string"
          [("old_string", "a\n"), ("new_string", "b\n"), ("file_path", "f.py")]).getD "")
        ((List.lookup "file_path"
          [("old_string", "a\n"), ("new_string", "b\n"), ("file_path", "f.py")]).getD "") :=
  render_tool_result_edit_delegates _ _ (by decide)

/-- C5: an edit diff whose body has 10 lines or fewer renders all lines with
no collapse affordance; a body with more than 10 lines shows only the first 5
by default, with an expand control whose text reports the hidden line count as
total minus 5 (so an 11-line diff reports 6 hidden lines). -/
theorem buildEditDiffHtml_collapse_policy (diff_body : List DiffLine) (file_path : String) :
    (diff_body.length ≤ 10 →
      buildEditDiffHtml diff_body file_path =
        "\n            <div class=\"edit-diff\">\n                " ++
          (if file_path ≠ "" then
            "<div class=\"diff-file-header\">• Edit " ++ escape file_path ++ "</div>"
           else "") ++
          "\n                " ++ render_diff_lines diff_body ++
          "\n            </div>\n            ") ∧
    (10 < diff_body.length →
      buildEditDiffHtml diff_body file_path =
        "\n            <div class=\"edit-diff collapsible\">\n                " ++
          (if file_path ≠ "" then
            "<div class=\"diff-file-header\">• Edit " ++ escape file_path ++ "</div>"
           else "") ++
          "\n                <div class=\"diff-preview\">\n                    " ++
          render_diff_lines (diff_body.take 5) ++
          "\n                    <div class=\"diff-expand-link\" onclick=\"this.parentElement.parentElement.classList.toggle(\x27expanded\x27)\">\n                        Show full diff (" ++
          toString (diff_body.length - 5) ++
          " more lines)\n                    </div>\n                </div>\n                <div class=\"diff-full\">\n                    " ++
          render_diff_lines diff_body ++
          "\n                </div>\n            </div>\n            ") := by
  constructor
  · intro hle
    have hno : ¬ diff_body.length > 10 := by omega
    by_cases hfp : file_path = ""
    · simp [buildEditDiffHtml, hno, hfp]
    · simp [buildEditDiffHtml, hno, hfp]
  · intro hgt
    have hyes : diff_body.length > 10 := hgt
    by_cases hfp : file_path = ""
    · simp [buildEditDiffHtml, hyes, hfp]
    · simp [buildEditDiffHtml, hyes, hfp]

/-- C5 (witness): an 11-line diff body collapses, shows its first 5 lines in
the preview and reports exactly 11 − 5 = 6 more lines hidden. -/
theorem buildEditDiffHtml_collapse_policy_witness :
    buildEditDiffHtml (List.replicate 11 ⟨"context", some 1, some 1, "x"⟩) "" =
      "\n            <div class=\"edit-diff collapsible\">\n                " ++
        (if ("" : String) ≠ "" then
          "<div class=\"diff-file-header\">• Edit " ++ escape "" ++ "</div>"
         else "") ++
        "\n                <div class=\"diff-preview\">\n                    " ++
        render_diff_lines ((List.replicate 11 ⟨"context", some 1, some 1, "x"⟩).take 5) ++
        "\n                    <div class=\"diff-expand-link\" onclick=\"this.parentElement.parentElement.classList.toggle(\x27expanded\x27)\">\n                        Show full diff (" ++
        toString ((List.replicate 11
          (⟨"context", some 1, some 1, "x"⟩ : DiffLine)).length - 5) ++
        " more lines)\n                    </div>\n                </div>\n                <div class=\"diff-full\">\n                    " ++
        render_diff_lines (List.replicate 11 ⟨"context", some 1, some 1, "x"⟩) ++
        "\n                </div>\n            </div>\n            " :=
  (buildEditDiffHtml_collapse_policy
    (List.replicate 11 ⟨"context", some 1, some 1, "x"⟩) "").2 (by decide)

/-- C6: for a Bash or Grep tool result, empty normalized content renders
nothing; content of exactly 3 lines or fewer renders fully expanded in a plain
preformatted block with no collapse control; content of more than 3 lines
shows only the first 3 lines by default with a click-to-expand affordance
stating the total line count, the full content remaining present in the
hidden full view. -/
theorem render_tool_result_bash_grep (result : MsgDict) (tool_name : String)
    (tool_input : Option (List (String × String)))
    (htool : tool_name = "Bash" ∨ tool_name = "Grep") :
    (normalize_result_content (result.content.getD (.str "")) = "" →
      render_tool_result result tool_name tool_input = "") ∧
    (normalize_result_content (result.content.getD (.str "")) ≠ "" →
      (pySplitNL (normalize_result_content (result.content.getD (.str "")))).length ≤ 3 →
      render_tool_result result tool_name tool_input =
        "\n            <div class=\"tool-result\">\n                <pre><code>" ++
          escape (normalize_result_content (result.content.getD (.str ""))) ++
          "</code></pre>\n            </div>\n            ") ∧
    (3 < (pySplitNL (normalize_result_content (result.content.getD (.str "")))).length →
      render_tool_result result tool_name tool_input =
        "\n                <div class=\"tool-result collapsible\">\n                    <div class=\"tool-result-preview\" onclick=\"this.parentElement.classList.toggle(\x27expanded\x27)\">\n                        <pre><code>" ++
          escape (pyJoin "\n"
            ((pySplitNL (normalize_result_content (result.content.getD (.str "")))).take 3)) ++
          "</code></pre>\n                        <div class=\"expand-hint\">Click to show full output (" ++
          toString (pySplitNL (normalize_result_content (result.content.getD (.str "")))).length ++
          " lines)</div>\n                    </div>\n                    <div class=\"tool-result-full\">\n                        <pre><code>" ++
          escape (normalize_result_content (result.content.getD (.str ""))) ++
          "</code></pre>\n                    </div>\n                </div>\n                ") := by
  have hedit : ¬ (tool_name = "Edit" ∧ tool_input.getD [] ≠ []) := by
    rcases htool with h | h <;> simp [h]
  refine ⟨?_, ?_, ?_⟩
  · intro hempty
    simp only [render_tool_result]
    rw [if_neg hedit, if_pos hempty]
  · intro hne hle
    simp only [render_tool_result]
    rw [if_neg hedit, if_neg hne]
    rw [if_neg ?png]
    case png =>
      intro hand
      omega
    rw [if_neg ?_]
    · intro hlong
      simp only [Bool.and_eq_true, decide_eq_true_eq] at hlong
      omega
  · intro hgt
    have hne : normalize_result_content (result.content.getD (.str "")) ≠ "" := by
      intro hh
      rw [hh] at hgt
      revert hgt
      decide
    simp only [render_tool_result]
    rw [if_neg hedit, if_neg hne, if_pos ⟨htool, hgt⟩]

/-- C6 (witness): a 4-line Bash result collapses, its preview shows the first
3 lines and the affordance reports 4 total lines. -/
theorem render_tool_result_bash_grep_witness :
    render_tool_result ⟨none, none, none, none, none, none, some (.str "l1\nl2\nl3\nl4")⟩
        "Bash" none =
      "\n                <div class=\"tool-result collapsible\">\n                    <div class=\"tool-result-preview\" onclick=\"this.parentElement.classList.toggle(\x27expanded\x27)\">\n                        <pre><code>" ++
        escape (pyJoin "\n" ((pySplitNL (normalize_result_content
          ((MsgDict.mk none none none none none none
            (some (.str "l1\nl2\nl3\nl4"))).content.getD (.str "")))).take 3)) ++
        "</code></pre>\n                        <div class=\"expand-hint\">Click to show full output (" ++
        toString (pySplitNL (normalize_result_content
          ((MsgDict.mk none none none none none none
            (some (.str "l1\nl2\nl3\nl4"))).content.getD (.str "")))).length ++
        " lines)</div>\n                    </div>\n                    <div class=\"tool-result-full\">\n                        <pre><code>" ++
        escape (normalize_result_content
          ((MsgDict.mk none none none none none none
            (some (.str "l1\nl2\nl3\nl4"))).content.getD (.str ""))) ++
        "</code></pre>\n                    </div>\n                </div>\n                " :=
  (render_tool_result_bash_grep
    ⟨none, none, none, none, none, none, some (.str "l1\nl2\nl3\nl4")⟩ "Bash" none
    (Or.inl rfl)).2.2 (by decide)

/-- C8: the tool-result lookup scans all loaded records in file order,
considers only user-type records, and renders the first content item that is a
`tool_result` whose `tool_use_id` equals the given id, returning the empty
fragment when none matches — a pure read equal to rendering the spec-side
first match of the flattened user-record items, which pairs each tool use with
at most one result. -/
theorem find_and_render_tool_result_first_match (messages : List Record)
    (tool_id : Option String) (tool_name : String)
    (tool_input : Option (List (String × String))) :
    find_and_render_tool_result messages tool_id tool_name tool_input =
      match specFirstToolResult messages tool_id with
      | some d => render_tool_result d tool_name tool_input
      | none => "" := by
  induction messages with
  | nil => rfl
  | cons msg rest ih =>
    by_cases ht : msg.type_ = "user"
    · cases hc : (msg.message.getD ⟨"", .items []⟩).content with
      | str s =>
        rw [findAR_cons_user_str ht hc, specFirst_cons_user_str ht hc]
        exact ih
      | items items =>
        rw [findAR_cons_user_items ht hc, specFirst_cons_user_items ht hc,
          findScanItems_eq]
        cases hfs : items.findSome? (toolResultMatch tool_id) with
        | some d => simp
        | none => simpa using ih
    · rw [findAR_cons_not_user ht, specFirst_cons_not_user ht]
      exact ih

/-- C9: an assistant record whose message content is a plain string is
iterated character by character — the renderer emits one markdown-converted
message-text block per non-whitespace character of the string (whitespace
characters are suppressed by the strip test), not a single text block for the
whole string. -/
theorem render_message_assistant_string_chars (messages : List Record)
    (ts : Option String) (role s : String) :
    render_message messages ⟨"assistant", ts, some ⟨role, .str s⟩⟩ =
      (if (s.data.filter (fun c => !(pyIsSpace c))).map
          (fun c => "<div class=\"message-text\">" ++ render_markdown (String.singleton c)
            ++ "</div>") ≠ [] then
        "<div class=\"message assistant-message\">" ++
          String.join ((s.data.filter (fun c => !(pyIsSpace c))).map
            (fun c => "<div class=\"message-text\">" ++ render_markdown (String.singleton c)
              ++ "</div>")) ++ "</div>"
       else "") := by
  simp only [render_message, Option.getD_some]
  rw [if_pos trivial, assistantParts_chars,
    if_neg (show ¬ ("assistant" : String) = "user" by decide)]

end CCHtml
